import Mathlib

/-!
Verification of the Antigv-plugin account-routing, quota-ledger and
protocol-translation engine.  The definitions below are shallow embeddings of
the repository's code: the PostgreSQL functions of the schema dump
(`get_user_shared_cookie_count`, `update_user_shared_quota_max`), the account
selection and streaming logic of `src/api/multi_account_client.js`, and the
message/schema translation of `src/utils/utils.js`.  Numeric quota columns
(PostgreSQL NUMERIC) are modelled as rationals; timestamp columns are not
modelled.  External collaborators (the JSON parser, the signature extractor,
the quota service oracles) appear as explicit function parameters.
-/

/-! ### Data model: SQL rows -/

/-- A row of the `accounts` table, restricted to the columns read by the SQL
functions under study (`user_id`, `is_shared`, `status`). -/
structure SqlAccount where
  user_id : String
  is_shared : Int
  status : Int
deriving DecidableEq, Repr

/-- A row of the `user_shared_quota_pool` table (timestamp columns omitted). -/
structure PoolRow where
  user_id : String
  model_name : String
  quota : ℚ
  max_quota : ℚ
deriving DecidableEq, Repr

/-- Embeds the PL/pgSQL function `get_user_shared_cookie_count(p_user_id)`:
`SELECT COUNT(*) FROM accounts WHERE user_id = p_user_id AND is_shared = 1
AND status = 1`.  Note the `user_id` filter: the count is per user. -/
def get_user_shared_cookie_count (accounts : List SqlAccount) (p_user_id : String) : Nat :=
  (accounts.filter (fun a => a.user_id == p_user_id && a.is_shared == 1 && a.status == 1)).length

/-- Predicate for the `WHERE user_id = p_user_id AND model_name = p_model_name`
clause of `update_user_shared_quota_max`. -/
def poolRowMatches (p_user_id p_model_name : String) (r : PoolRow) : Bool :=
  r.user_id == p_user_id && r.model_name == p_model_name

/-- The per-row effect of the `UPDATE user_shared_quota_pool SET max_quota =
v_new_max, quota = GREATEST(quota, v_new_max) WHERE ...` statement. -/
def updatePoolRow (p_user_id p_model_name : String) (v_new_max : ℚ) (r : PoolRow) : PoolRow :=
  if poolRowMatches p_user_id p_model_name r then
    { r with max_quota := v_new_max, quota := max r.quota v_new_max }
  else r

/-- Embeds the PL/pgSQL function `update_user_shared_quota_max(p_user_id,
p_model_name)`: compute `v_new_max := 2.0 * get_user_shared_cookie_count`,
`UPDATE user_shared_quota_pool SET max_quota = v_new_max, quota =
GREATEST(quota, v_new_max) WHERE user_id = p AND model_name = m`; `IF NOT
FOUND` insert a fresh row with `quota = max_quota = v_new_max`. -/
def update_user_shared_quota_max (accounts : List SqlAccount) (pool : List PoolRow)
    (p_user_id p_model_name : String) : List PoolRow :=
  let v_cookie_count := get_user_shared_cookie_count accounts p_user_id
  let v_new_max : ℚ := 2 * v_cookie_count
  if pool.any (poolRowMatches p_user_id p_model_name) then
    pool.map (updatePoolRow p_user_id p_model_name v_new_max)
  else
    pool ++ [⟨p_user_id, p_model_name, v_new_max, v_new_max⟩]

/-- Modelled from the spec (for comparison only): the number of
currently-enabled shared accounts counted globally across all users, which the
spec says the ceiling should scale with. -/
def globalSharedCookieCount (accounts : List SqlAccount) : Nat :=
  (accounts.filter (fun a => a.is_shared == 1 && a.status == 1)).length

/-! ### Quota consumption recording (claim C6)

`generateResponse` in `src/api/multi_account_client.js` finalizes an exchange
by fetching `quotaAfter`, clamping a negative consumption to zero for its log
line, and calling `quotaService.recordQuotaConsumption` exactly when both
quota figures are non-null.  `quota.service.js` itself is not among the
sources, so the recorded delta is modelled from the spec. -/

/-- A row of `quota_consumption_log`, restricted to the quota figures. -/
structure ConsumptionRow where
  quota_before : ℚ
  quota_after : ℚ
  quota_consumed : ℚ
deriving DecidableEq, Repr

/-- Modelled from the spec: `recordQuotaConsumption` of the missing
`quota.service.js` appends a ledger row whose delta is
`max(0, before − after)` ("delta = max(0, before − after); always appends a
log row when both values are known"). -/
def recordQuotaConsumption (quota_before quota_after : ℚ) : ConsumptionRow :=
  ⟨quota_before, quota_after, max 0 (quota_before - quota_after)⟩

/-- The clamp computed in `generateResponse` itself: `consumed = quotaBefore -
quotaAfter; if (consumed < 0) consumed = 0`. -/
def clientConsumed (quotaBefore quotaAfter : ℚ) : ℚ :=
  let consumed := quotaBefore - quotaAfter
  if consumed < 0 then 0 else consumed

/-- The quota finalization of `generateResponse`: a log row is produced iff
both `quotaBefore` and `quotaAfter` are non-null. -/
def finalizeQuota (quotaBefore quotaAfter : Option ℚ) : Option ConsumptionRow :=
  match quotaBefore, quotaAfter with
  | some b, some a => some (recordQuotaConsumption b a)
  | _, _ => none

/-! ### Message translation, tool-result turns (claim C10)

Shallow embedding of `handleToolCall` in `src/utils/utils.js`. -/

/-- A `functionCall` segment as built by the translator (arguments kept in
their JSON-serialized form). -/
structure GFunctionCall where
  id : String
  name : String
  args : String
deriving DecidableEq, Repr

/-- A `functionResponse` segment: `{ id, name, response: { output } }`. -/
structure GFunctionResponse where
  id : String
  name : String
  output : String
deriving DecidableEq, Repr

/-- An inline-image segment `{ mimeType, data }`. -/
structure InlineData where
  mimeType : String
  data : String
deriving DecidableEq, Repr

/-- A content part in the upstream (Antigravity/Gemini) format.  JS parts are
duck-typed objects; each optional field is `none` when absent. -/
structure GPart where
  text : Option String := none
  thought : Option Bool := none
  thoughtSignature : Option String := none
  inlineData : Option InlineData := none
  functionCall : Option GFunctionCall := none
  functionResponse : Option GFunctionResponse := none
deriving DecidableEq, Repr

/-- An upstream-format message: `{ role, parts }`. -/
structure AntigravityMessage where
  role : String
  parts : List GPart
deriving DecidableEq, Repr

/-- The fields of an OpenAI tool-result message read by `handleToolCall`. -/
structure ToolMessage where
  tool_call_id : String
  content : String
deriving DecidableEq, Repr

/-- The inner loop of `handleToolCall`'s back-scan: the first part of a model
message whose `functionCall.id` equals the call id, returning its name (the
JS loop assigns the name and breaks at the first match). -/
def firstMatchName (parts : List GPart) (callId : String) : String :=
  match parts.find? (fun p =>
      match p.functionCall with
      | some fc => fc.id == callId
      | none => false) with
  | some p =>
    match p.functionCall with
    | some fc => fc.name
    | none => ""
  | none => ""

/-- The outer back-scan loop over the reversed message list: take the first
nonempty matched name; an empty matched name (falsy in JS) lets the scan
continue to earlier model messages. -/
def findFunctionNameRev (msgs : List AntigravityMessage) (callId : String) : String :=
  match msgs with
  | [] => ""
  | msg :: rest =>
    if msg.role == "model" then
      let n := firstMatchName msg.parts callId
      if n ≠ "" then n else findFunctionNameRev rest callId
    else findFunctionNameRev rest callId

/-- `handleToolCall`'s backward scan `for (let i = length - 1; i >= 0; i--)`. -/
def findFunctionName (msgs : List AntigravityMessage) (callId : String) : String :=
  findFunctionNameRev msgs.reverse callId

/-- Whether any prior model turn contains a `functionCall` with the given id
(used to state the no-match hypothesis of claim C10). -/
def hasMatchingCall (msgs : List AntigravityMessage) (callId : String) : Bool :=
  msgs.any (fun mg => mg.role == "model" && mg.parts.any (fun p =>
    match p.functionCall with
    | some fc => fc.id == callId
    | none => false))

/-- Embeds `handleToolCall(message, antigravityMessages)` of
`src/utils/utils.js`: build a `functionResponse` part carrying the original
`tool_call_id`, the back-scanned name (possibly empty) and the message
content; merge it into a trailing user message that already holds a
`functionResponse`, else append a fresh user message. -/
def handleToolCall (message : ToolMessage) (msgs : List AntigravityMessage) :
    List AntigravityMessage :=
  let functionName := findFunctionName msgs message.tool_call_id
  let fr : GPart :=
    { functionResponse := some ⟨message.tool_call_id, functionName, message.content⟩ }
  match msgs.getLast? with
  | some lastMessage =>
    if lastMessage.role == "user" && lastMessage.parts.any (fun p => p.functionResponse.isSome)
    then msgs.dropLast ++ [{ lastMessage with parts := lastMessage.parts ++ [fr] }]
    else msgs ++ [⟨"user", [fr]⟩]
  | none => msgs ++ [⟨"user", [fr]⟩]

/-- All parts of a conversation, in order (used to state that translation
appends exactly one segment and drops nothing). -/
def allParts (msgs : List AntigravityMessage) : List GPart :=
  (msgs.map (fun mg => mg.parts)).flatten

/-! ### Account selection (claims C4, C5)

Shallow embedding of `getAvailableAccount` in
`src/api/multi_account_client.js` together with the account query of
`src/services/account.service.js`.  The quota service (not among the sources)
is abstracted by oracles: `modelAvail` for `isModelAvailable(cookie_id,
model)`, `sharedModels` for `getQuotaSharedModels(model)` and `userPool` for
`getUserModelSharedQuotaPool(user_id, m).quota`.  `Math.random()` is
abstracted by an arbitrary index reduced modulo the pool size. -/

/-- A row of the `accounts` table as read by account selection. -/
structure DbAccount where
  cookie_id : String
  user_id : String
  is_shared : Int
  status : Int
  need_refresh : Bool
  expires_at : Option Int
deriving DecidableEq, Repr

/-- Embeds `accountService.getAvailableAccounts(user_id, is_shared)`:
`SELECT * FROM accounts WHERE status = 1 AND need_refresh = FALSE`, plus
`is_shared = $s` when given, plus `user_id = $u` when a user is given and the
query is not for shared accounts (`is_shared !== 1`).  The `ORDER BY
created_at ASC` clause only fixes the enumeration order: rows are assumed
stored in creation order. -/
def getAvailableAccounts (db : List DbAccount) (user_id : Option String)
    (is_shared : Option Int) : List DbAccount :=
  db.filter (fun a =>
    a.status == 1 && !a.need_refresh
    && (match is_shared with
        | some s => a.is_shared == s
        | none => true)
    && (match user_id with
        | some u => if is_shared == some 1 then true else a.user_id == u
        | none => true))

/-- Embeds `accountService.isTokenExpired(account)`: expired when no expiry is
recorded (JS falsiness also covers an expiry of `0`) or when now is within the
5-minute (300000 ms) safety margin of the expiry. -/
def isTokenExpired (a : DbAccount) (now : Int) : Bool :=
  match a.expires_at with
  | none => true
  | some e => if e == 0 then true else decide (now ≥ e - 300000)

/-- The two failure modes of `getAvailableAccount`: the no-account throw
(`没有可用的账号`) and the quota-exhausted throw. -/
inductive SelError where
  | noAccounts
  | quotaExhausted
deriving DecidableEq, Repr

/-- The shared-pool check for a shared cookie: the user has positive quota for
at least one model of the model's quota-sharing group. -/
def hasSharedQuota (sharedModels : List String) (userPool : String → Option ℚ) : Bool :=
  sharedModels.any (fun m =>
    match userPool m with
    | some q => decide (q > 0)
    | none => false)

/-- The precedence-ordered candidate list: shared-then-dedicated when
`prefer_shared = 1`, dedicated-then-shared otherwise. -/
def orderedAccounts (db : List DbAccount) (user_id : String) (preferShared : Int) :
    List DbAccount :=
  if preferShared == 1 then
    getAvailableAccounts db none (some 1) ++ getAvailableAccounts db (some user_id) (some 0)
  else
    getAvailableAccounts db (some user_id) (some 0) ++ getAvailableAccounts db none (some 1)

/-- The exclusion filter `accounts.filter(acc => !excludeCookieIds.includes
(acc.cookie_id))` (the JS guard on a nonempty exclusion list is a no-op). -/
def nonExcluded (excludeCookieIds : List String) (accounts : List DbAccount) :
    List DbAccount :=
  accounts.filter (fun a => !excludeCookieIds.contains a.cookie_id)

/-- The per-model availability filter: keep accounts whose model is available
and, for shared cookies, whose user has shared-pool quota. -/
def availableAccounts (modelAvail : String → Bool) (sharedModels : List String)
    (userPool : String → Option ℚ) (accounts : List DbAccount) : List DbAccount :=
  accounts.filter (fun a =>
    modelAvail a.cookie_id &&
    (if a.is_shared == 1 then hasSharedQuota sharedModels userPool else true))

/-- The winning pool: the first non-empty pool in precedence order. -/
def selectedPool (preferShared : Int) (avail : List DbAccount) : List DbAccount :=
  if preferShared == 1 then
    if !(avail.filter (fun a => a.is_shared == 1)).isEmpty then
      avail.filter (fun a => a.is_shared == 1)
    else avail.filter (fun a => a.is_shared == 0)
  else
    if !(avail.filter (fun a => a.is_shared == 0)).isEmpty then
      avail.filter (fun a => a.is_shared == 0)
    else avail.filter (fun a => a.is_shared == 1)

/-- One pass of `getAvailableAccount` without the token-refresh retry: build
the ordered pools, drop excluded accounts (throw when none remain), filter
for model availability and shared-pool quota (throw when none remain), then
pick the element of the winning pool at the random index.  The `none` arm of
the final match is unreachable when every `is_shared` is 0 or 1. -/
def selectAccount (db : List DbAccount) (user_id : String) (preferShared : Int)
    (excludeCookieIds : List String) (modelAvail : String → Bool)
    (sharedModels : List String) (userPool : String → Option ℚ)
    (randIdx : Nat) : Except SelError DbAccount :=
  let accounts := nonExcluded excludeCookieIds (orderedAccounts db user_id preferShared)
  if accounts.isEmpty then .error .noAccounts
  else
    let avail := availableAccounts modelAvail sharedModels userPool accounts
    if avail.isEmpty then .error .quotaExhausted
    else
      let pool := selectedPool preferShared avail
      match pool[randIdx % pool.length]? with
      | some account => .ok account
      | none => .error .noAccounts

/-- The retry driver of `getAvailableAccount`: if the chosen account's token
is expired a refresh is attempted (`refreshOk` abstracts its outcome); on
failure the account is excluded and selection recurses with the enlarged
exclusion list.  The code additionally disables the failed account in the
database, which only shrinks later query results further; the exclusion list
alone already removes it, so the stored rows are kept fixed here.  Totality
of this definition is the termination argument: each retry strictly shrinks
the non-excluded candidate list. -/
def getAvailableAccount (db : List DbAccount) (user_id : String) (preferShared : Int)
    (modelAvail : String → Bool) (sharedModels : List String)
    (userPool : String → Option ℚ) (now : Int) (refreshOk : String → Bool)
    (rand : Nat → Nat) (excludeCookieIds : List String) : Except SelError DbAccount :=
  match hsel : selectAccount db user_id preferShared excludeCookieIds modelAvail
      sharedModels userPool (rand excludeCookieIds.length) with
  | .error e => .error e
  | .ok account =>
    if isTokenExpired account now then
      if refreshOk account.cookie_id then .ok account
      else
        getAvailableAccount db user_id preferShared modelAvail sharedModels userPool now
          refreshOk rand (excludeCookieIds ++ [account.cookie_id])
    else .ok account
termination_by (nonExcluded excludeCookieIds (orderedAccounts db user_id preferShared)).length
decreasing_by
  have hmem : account ∈ nonExcluded excludeCookieIds (orderedAccounts db user_id preferShared) := by
    unfold selectAccount at hsel
    simp only [] at hsel
    split at hsel
    · exact absurd hsel (by simp)
    · split at hsel
      · exact absurd hsel (by simp)
      · split at hsel
        case _ a heq =>
          have ha : a = account := by
            injection hsel
          subst ha
          have hpool := List.getElem?_mem heq
          have havail : a ∈ availableAccounts modelAvail sharedModels userPool
              (nonExcluded excludeCookieIds (orderedAccounts db user_id preferShared)) := by
            unfold selectedPool at hpool
            split at hpool
            · split at hpool
              · exact List.mem_of_mem_filter hpool
              · exact List.mem_of_mem_filter hpool
            · split at hpool
              · exact List.mem_of_mem_filter hpool
              · exact List.mem_of_mem_filter hpool
          exact List.mem_of_mem_filter havail
        case _ heq => exact absurd hsel (by simp)
  have hrw : nonExcluded (excludeCookieIds ++ [account.cookie_id])
        (orderedAccounts db user_id preferShared)
      = (nonExcluded excludeCookieIds (orderedAccounts db user_id preferShared)).filter
          (fun a => !(a.cookie_id == account.cookie_id)) := by
    unfold nonExcluded
    rw [List.filter_filter]
    apply List.filter_congr
    intro a _
    have hbe : (a.cookie_id == account.cookie_id) = decide (a.cookie_id = account.cookie_id) := by
      by_cases h : a.cookie_id = account.cookie_id <;> simp [h]
    simp [hbe, Bool.and_comm]
  rw [hrw]
  apply List.length_filter_lt_length_iff_exists.mpr
  exact ⟨account, hmem, by simp⟩

/-! ### JSON-schema normalization (claim C9)

Shallow embedding of `normalizeJsonSchema` and `UNSUPPORTED_SCHEMA_KEYS` of
`src/utils/utils.js`.  JSON values are modelled by `JsonVal`; a JS object is
an ordered list of key/value entries (JS objects have unique keys, so the
per-entry processing below coincides with the source's delete-then-recurse
order).  The result is `Option`-valued because `Object.entries(null)` throws
a `TypeError` when a schema carries `properties: null` (`typeof null` is
`"object"` and `Array.isArray(null)` is false, so the source reaches
`Object.entries` on it). -/

/-- JSON values (numbers restricted to integers; no claim depends on
fractional numerics). -/
inductive JsonVal where
  | null
  | bool (b : Bool)
  | num (n : Int)
  | str (s : String)
  | arr (elems : List JsonVal)
  | obj (entries : List (String × JsonVal))
deriving Repr

/-- The keyword blacklist `UNSUPPORTED_SCHEMA_KEYS` of `src/utils/utils.js`
(a JS `Set`, modelled as a list queried by membership). -/
def UNSUPPORTED_SCHEMA_KEYS : List String :=
  ["$schema", "$id", "$defs", "definitions",
   "allOf", "anyOf", "oneOf", "not", "if", "then", "else",
   "pattern", "patternProperties", "propertyNames",
   "minLength", "maxLength",
   "minItems", "maxItems", "uniqueItems", "contains",
   "minimum", "maximum", "exclusiveMinimum", "exclusiveMaximum", "multipleOf",
   "dependentSchemas", "dependentRequired",
   "additionalItems", "unevaluatedItems", "unevaluatedProperties"]

mutual

/-- Embeds `normalizeJsonSchema(schema)`: primitives and `null` are returned
unchanged, arrays are mapped elementwise, and objects get the blacklist
removed at top level with recursion into `properties` values, `items`, and
object-typed `additionalProperties` (`typeof`-object in JS: objects, arrays
and `null`). -/
def normalizeJsonSchema : JsonVal → Option JsonVal
  | .null => some .null
  | .bool b => some (.bool b)
  | .num n => some (.num n)
  | .str s => some (.str s)
  | .arr xs =>
    match normSeq xs with
    | some ys => some (.arr ys)
    | none => none
  | .obj kvs =>
    match normEntries kvs with
    | some es => some (.obj es)
    | none => none

/-- `schema.map(item => normalizeJsonSchema(item))` for arrays. -/
def normSeq : List JsonVal → Option (List JsonVal)
  | [] => some []
  | x :: xs =>
    match normalizeJsonSchema x, normSeq xs with
    | some y, some ys => some (y :: ys)
    | _, _ => none

/-- The `properties` recursion: each property value is normalized, keys and
order preserved. -/
def normPropValues : List (String × JsonVal) → Option (List (String × JsonVal))
  | [] => some []
  | (k, v) :: rest =>
    match normalizeJsonSchema v, normPropValues rest with
    | some v2, some rest2 => some ((k, v2) :: rest2)
    | _, _ => none

/-- The per-object step: drop blacklisted keys; recurse into `properties`
(object values only; `null` throws, arrays and primitives stay untouched),
`items` (always), and `additionalProperties` (objects, arrays and `null` —
the JS `typeof === 'object'` test); every other entry is kept unchanged. -/
def normEntries : List (String × JsonVal) → Option (List (String × JsonVal))
  | [] => some []
  | (k, v) :: rest =>
    if UNSUPPORTED_SCHEMA_KEYS.contains k then
      normEntries rest
    else if k == "properties" then
      match v with
      | .obj pvs =>
        match normPropValues pvs, normEntries rest with
        | some pvs2, some rest2 => some ((k, .obj pvs2) :: rest2)
        | _, _ => none
      | .null => none
      | _ =>
        match normEntries rest with
        | some rest2 => some ((k, v) :: rest2)
        | none => none
    else if k == "items" then
      match normalizeJsonSchema v, normEntries rest with
      | some v2, some rest2 => some ((k, v2) :: rest2)
      | _, _ => none
    else if k == "additionalProperties" then
      match v with
      | .obj pvs =>
        match normalizeJsonSchema (.obj pvs), normEntries rest with
        | some v2, some rest2 => some ((k, v2) :: rest2)
        | _, _ => none
      | .arr xs =>
        match normalizeJsonSchema (.arr xs), normEntries rest with
        | some v2, some rest2 => some ((k, v2) :: rest2)
        | _, _ => none
      | .null =>
        match normEntries rest with
        | some rest2 => some ((k, .null) :: rest2)
        | none => none
      | _ =>
        match normEntries rest with
        | some rest2 => some ((k, v) :: rest2)
        | none => none
    else
      match normEntries rest with
      | some rest2 => some ((k, v) :: rest2)
      | none => none

end

mutual

/-- Blacklist absence along the positions the normalizer rewrites: object top
levels reached through array elements, `properties` values, `items`, and
object-typed `additionalProperties`. -/
def schemaClean : JsonVal → Bool
  | .null => true
  | .bool _ => true
  | .num _ => true
  | .str _ => true
  | .arr xs => cleanSeq xs
  | .obj kvs => cleanEntries kvs

/-- `schemaClean` on every array element. -/
def cleanSeq : List JsonVal → Bool
  | [] => true
  | x :: xs => schemaClean x && cleanSeq xs

/-- `schemaClean` on every property value. -/
def cleanPropValues : List (String × JsonVal) → Bool
  | [] => true
  | (_, v) :: rest => schemaClean v && cleanPropValues rest

/-- No blacklisted key at this object level, and cleanliness in the recursed
positions. -/
def cleanEntries : List (String × JsonVal) → Bool
  | [] => true
  | (k, v) :: rest =>
    !UNSUPPORTED_SCHEMA_KEYS.contains k
    && (if k == "properties" then
          match v with
          | .obj pvs => cleanPropValues pvs
          | _ => true
        else if k == "items" then schemaClean v
        else if k == "additionalProperties" then
          match v with
          | .obj pvs => schemaClean (.obj pvs)
          | .arr xs => schemaClean (.arr xs)
          | .null => true
          | _ => true
        else true)
    && cleanEntries rest

end

mutual

/-- Whether a key occurs anywhere in a JSON value, at any nesting level (the
claim's reading of "absent from the output at every nesting level"). -/
def hasKeyDeep (key : String) : JsonVal → Bool
  | .arr xs => hasKeyDeepSeq key xs
  | .obj kvs => hasKeyDeepEntries key kvs
  | _ => false

/-- `hasKeyDeep` over array elements. -/
def hasKeyDeepSeq (key : String) : List JsonVal → Bool
  | [] => false
  | x :: xs => hasKeyDeep key x || hasKeyDeepSeq key xs

/-- `hasKeyDeep` over object entries, also matching the keys themselves. -/
def hasKeyDeepEntries (key : String) : List (String × JsonVal) → Bool
  | [] => false
  | (k, v) :: rest => k == key || hasKeyDeep key v || hasKeyDeepEntries key rest

end

/-! ### Stream reassembly (claims C7, C8)

Shallow embedding of the streaming read loop of `generateResponse` in
`src/api/multi_account_client.js` (lines 268-385): a carry-over buffer is
extended by each chunk, split on line breaks with the trailing (possibly
incomplete) line re-buffered, and each complete `data: `-prefixed line is
parsed and turned into callback events.  The byte stream is modelled as a
character stream (`decoder.decode(value, {stream: true})` makes the UTF-8
decoding itself boundary-invariant); `JSON.parse` is an abstract `parse`
oracle returning `none` on the lines it would reject (which the loop skips);
`signatureService.extractSignatureFromResponse` is an abstract `extractSig`
oracle (its result never reaches the callbacks).  `collectedParts`, used only
for logging, is not modelled. -/

/-- An accumulated OpenAI-shaped tool call `{ id, type: 'function',
function: { name, arguments } }` (the constant `type` field is omitted). -/
structure ToolCall where
  id : String
  name : String
  argumentsJson : String
deriving DecidableEq, Repr

/-- The fields of a parsed upstream record the loop reads:
`data.response?.candidates?.[0]?.content?.parts` and
`data.response?.candidates?.[0]?.finishReason`. -/
structure DataRecord where
  parts : Option (List GPart)
  finishReason : Option String
deriving DecidableEq, Repr

/-- The events delivered to the caller-facing callback. -/
inductive StreamEvent where
  | reasoning (content : String)
  | text (content : String)
  | image (image : InlineData)
  | tool_calls (calls : List ToolCall)
deriving DecidableEq, Repr

/-- The mutable state of the read loop (the parts that outlive one line). -/
structure StreamState where
  reasoningContent : String
  fullTextContent : String
  generatedImages : List InlineData
  toolCalls : List ToolCall
  hasToolCalls : Bool
  lastFinishReason : Option String
  collectedSignature : Option String
deriving DecidableEq, Repr

/-- The loop's initial state. -/
def initState : StreamState :=
  ⟨"", "", [], [], false, none, none⟩

/-- JS truthiness of the optional `finishReason` string. -/
def truthyStr : Option String → Bool
  | none => false
  | some s => !(s == "")

/-- One part of the `for (const part of parts)` body: the
thought/text/inlineData/functionCall else-if chain. -/
def processPart (st : StreamState) (p : GPart) : StreamState × List StreamEvent :=
  if p.thought == some true then
    ({ st with reasoningContent := st.reasoningContent ++ (p.text.getD "") },
     [.reasoning (p.text.getD "")])
  else
    match p.text with
    | some t =>
      if t.trim == "" then (st, [])
      else ({ st with fullTextContent := st.fullTextContent ++ t }, [.text t])
    | none =>
      match p.inlineData with
      | some d =>
        ({ st with generatedImages := st.generatedImages ++ [d] }, [.image d])
      | none =>
        match p.functionCall with
        | some fc =>
          ({ st with hasToolCalls := true,
                     toolCalls := st.toolCalls ++ [⟨fc.id, fc.name, fc.args⟩] }, [])
        | none => (st, [])

/-- The parts loop, left to right. -/
def processParts (st : StreamState) : List GPart → StreamState × List StreamEvent
  | [] => (st, [])
  | p :: ps =>
    let r1 := processPart st p
    let r2 := processParts r1.1 ps
    (r2.1, r1.2 ++ r2.2)

/-- Everything the loop does with one parsed record except the trailing
tool-call flush: record `lastFinishReason`, capture the first signature, and
run the parts loop. -/
def absorbRecord (extractSig : List GPart → Option String) (st : StreamState)
    (r : DataRecord) : StreamState × List StreamEvent :=
  let st1 := if truthyStr r.finishReason then { st with lastFinishReason := r.finishReason }
             else st
  match r.parts with
  | some ps =>
    let st2 :=
      if st1.collectedSignature.isNone then
        match extractSig ps with
        | some sig => if sig == "" then st1 else { st1 with collectedSignature := some sig }
        | none => st1
      else st1
    processParts st2 ps
  | none => (st1, [])

/-- One parsed record: absorb it, then flush the accumulated tool calls as a
single `tool_calls` event exactly when the record carries a truthy
`finishReason` and the buffer is non-empty. -/
def processRecord (extractSig : List GPart → Option String) (st : StreamState)
    (r : DataRecord) : StreamState × List StreamEvent :=
  let r3 := absorbRecord extractSig st r
  if truthyStr r.finishReason && !r3.1.toolCalls.isEmpty then
    ({ r3.1 with toolCalls := [] }, r3.2 ++ [.tool_calls r3.1.toolCalls])
  else r3

/-- One complete line: skip unless `data: `-prefixed; strip the prefix and
trim; skip when empty; parse defensively (a parse failure skips the line). -/
def processLine (parse : String → Option DataRecord)
    (extractSig : List GPart → Option String) (st : StreamState)
    (line : List Char) : StreamState × List StreamEvent :=
  if ("data: ".toList).isPrefixOf line then
    let jsonStr := (String.mk (line.drop 6)).trim
    if jsonStr == "" then (st, [])
    else
      match parse jsonStr with
      | some r => processRecord extractSig st r
      | none => (st, [])
  else (st, [])

/-- The complete lines of one buffer pass, left to right. -/
def processLines (parse : String → Option DataRecord)
    (extractSig : List GPart → Option String) (st : StreamState) :
    List (List Char) → StreamState × List StreamEvent
  | [] => (st, [])
  | l :: ls =>
    let r1 := processLine parse extractSig st l
    let r2 := processLines parse extractSig r1.1 ls
    (r2.1, r1.2 ++ r2.2)

/-- `buffer.split('\n')` with the trailing element popped back into the
buffer: returns (complete lines, new buffer). -/
def splitNl : List Char → List (List Char) × List Char
  | [] => ([], [])
  | c :: t =>
    if c = '\n' then
      ([] :: (splitNl t).1, (splitNl t).2)
    else
      match splitNl t with
      | ([], p) => ([], c :: p)
      | (l :: ls, p) => ((c :: l) :: ls, p)

/-- One `reader.read()` iteration: append the chunk to the carry-over buffer,
split on line breaks, re-buffer the trailing line, process the complete
lines. -/
def feedChunk (parse : String → Option DataRecord)
    (extractSig : List GPart → Option String)
    (acc : List Char × StreamState × List StreamEvent) (chunk : List Char) :
    List Char × StreamState × List StreamEvent :=
  let sp := splitNl (acc.1 ++ chunk)
  let pr := processLines parse extractSig acc.2.1 sp.1
  (sp.2, pr.1, acc.2.2 ++ pr.2)

/-- The whole read loop over a chunked byte stream (the final buffer is
discarded at end of stream, identically for every chunking). -/
def runStream (parse : String → Option DataRecord)
    (extractSig : List GPart → Option String) (chunks : List (List Char)) :
    List Char × StreamState × List StreamEvent :=
  chunks.foldl (feedChunk parse extractSig) ([], initState, [])

/-- Record-level run for claim C8: the event list emitted at each record,
starting from a given state. -/
def runRecordsFrom (extractSig : List GPart → Option String) :
    StreamState → List DataRecord → List (List StreamEvent)
  | _, [] => []
  | st, r :: rs =>
    let pr := processRecord extractSig st r
    pr.2 :: runRecordsFrom extractSig pr.1 rs

/-- The state after processing a prefix of records. -/
def recordStateFrom (extractSig : List GPart → Option String) :
    StreamState → List DataRecord → StreamState
  | st, [] => st
  | st, r :: rs => recordStateFrom extractSig (processRecord extractSig st r).1 rs

/-- Record-level run from the initial state. -/
def runRecords (extractSig : List GPart → Option String) (rs : List DataRecord) :
    List (List StreamEvent) :=
  runRecordsFrom extractSig initState rs

/-- The state reached just before record `i` (from the initial state). -/
def recordStateAt (extractSig : List GPart → Option String) (rs : List DataRecord)
    (i : Nat) : StreamState :=
  recordStateFrom extractSig initState (rs.take i)

/-- The number of `tool_calls` events in an event list. -/
def countToolCallEvents (evs : List StreamEvent) : Nat :=
  (evs.filter (fun e =>
    match e with
    | .tool_calls _ => true
    | _ => false)).length

/-! ### Theorems for claims C1, C2, C3 -/

/-- Helper: `updatePoolRow` preserves the row key, so it preserves matching. -/
theorem poolRowMatches_updatePoolRow (u m : String) (v : ℚ) (r : PoolRow) :
    poolRowMatches u m (updatePoolRow u m v r) = poolRowMatches u m r := by
  by_cases h : poolRowMatches u m r = true
  · simp only [updatePoolRow, h, if_pos]
    simpa [poolRowMatches] using h
  · simp [updatePoolRow, h]

/-- Helper: `updatePoolRow` is idempotent on each row. -/
theorem updatePoolRow_idem (u m : String) (v : ℚ) (r : PoolRow) :
    updatePoolRow u m v (updatePoolRow u m v r) = updatePoolRow u m v r := by
  by_cases h : poolRowMatches u m r = true
  · have h2 : poolRowMatches u m (updatePoolRow u m v r) = true := by
      rw [poolRowMatches_updatePoolRow]; exact h
    simp [updatePoolRow, h, h2, max_assoc]
  · simp [updatePoolRow, h]

/-- Helper: unfolding the match branch of the recomputation. -/
theorem update_qmax_eq_map (accounts : List SqlAccount) (pool : List PoolRow)
    (u m : String) (hany : pool.any (poolRowMatches u m) = true) :
    update_user_shared_quota_max accounts pool u m
      = pool.map (updatePoolRow u m (2 * (get_user_shared_cookie_count accounts u : ℚ))) := by
  simp only [update_user_shared_quota_max, hany, if_pos]

/-- Helper: unfolding the insert branch of the recomputation. -/
theorem update_qmax_eq_append (accounts : List SqlAccount) (pool : List PoolRow)
    (u m : String) (hany : pool.any (poolRowMatches u m) = false) :
    update_user_shared_quota_max accounts pool u m
      = pool ++ [⟨u, m, 2 * (get_user_shared_cookie_count accounts u : ℚ),
                       2 * (get_user_shared_cookie_count accounts u : ℚ)⟩] := by
  simp only [update_user_shared_quota_max, hany, Bool.false_eq_true, if_neg, not_false_iff]


/-- C1 counterexample: two users each own one enabled shared account.
Recomputing the ceiling for user `"alice"` yields `max_quota = 2`
(2 × her one shared account), while the claim predicts
`2 × globalSharedCookieCount = 4`.  The ceiling is per user, not global. -/
theorem claim1_ceiling_cex :
    (update_user_shared_quota_max
        [⟨"alice", 1, 1⟩, ⟨"bob", 1, 1⟩] [] "alice" "m")
      = [⟨"alice", "m", 2, 2⟩]
    ∧ 2 * (globalSharedCookieCount [⟨"alice", 1, 1⟩, ⟨"bob", 1, 1⟩] : ℚ) = 4
    ∧ (2 : ℚ) ≠ 4 := by
  refine ⟨?_, by norm_num [globalSharedCookieCount], by norm_num⟩
  simp [update_user_shared_quota_max, get_user_shared_cookie_count, poolRowMatches]

/-- C1 amended: after recomputation, every pool row for `(p_user_id,
p_model_name)` has ceiling `2 × (number of currently-enabled shared accounts
owned by that user)` — the count is per user, not global. -/
theorem claim1_ceiling_amended (accounts : List SqlAccount) (pool : List PoolRow)
    (u m : String) (r : PoolRow)
    (hr : r ∈ update_user_shared_quota_max accounts pool u m)
    (hm : poolRowMatches u m r = true) :
    r.max_quota = 2 * (get_user_shared_cookie_count accounts u : ℚ) := by
  by_cases hfound : pool.any (poolRowMatches u m) = true
  · rw [update_qmax_eq_map accounts pool u m hfound] at hr
    rcases List.mem_map.mp hr with ⟨r0, _, hr0⟩
    have hmr : poolRowMatches u m r0 = true := by
      rw [← poolRowMatches_updatePoolRow u m (2 * (get_user_shared_cookie_count accounts u : ℚ)),
        hr0]
      exact hm
    rw [← hr0]
    simp [updatePoolRow, hmr]
  · have hfound' : pool.any (poolRowMatches u m) = false := by simpa using hfound
    rw [update_qmax_eq_append accounts pool u m hfound'] at hr
    rcases List.mem_append.mp hr with hin | hnew
    · exact absurd hm (by
        have := List.any_eq_false.mp hfound' r hin
        simp [this])
    · simp at hnew
      subst hnew
      rfl

/-- C1 amended witness at a concrete input. -/
theorem claim1_ceiling_witness :
    (⟨"alice", "m", 2, 2⟩ : PoolRow) ∈
      update_user_shared_quota_max [⟨"alice", 1, 1⟩, ⟨"bob", 1, 1⟩] [] "alice" "m"
    ∧ (⟨"alice", "m", 2, 2⟩ : PoolRow).max_quota =
        2 * (get_user_shared_cookie_count [⟨"alice", 1, 1⟩, ⟨"bob", 1, 1⟩] "alice" : ℚ) := by
  have hmem : (⟨"alice", "m", 2, 2⟩ : PoolRow) ∈
      update_user_shared_quota_max [⟨"alice", 1, 1⟩, ⟨"bob", 1, 1⟩] [] "alice" "m" := by
    simp [update_user_shared_quota_max, get_user_shared_cookie_count, poolRowMatches]
  exact ⟨hmem, claim1_ceiling_amended _ _ _ _ _ hmem (by decide)⟩

/-- C2: recomputing the shared-quota ceiling is idempotent and never decreases
any pool row's current quota; a missing row for `(u, m)` is created with
`quota = max_quota = 2n`, an existing one gets `quota := max quota (2n)`,
`max_quota := 2n` (timestamp columns are not modelled). -/
theorem claim2_recompute_idempotent_monotone (accounts : List SqlAccount)
    (pool : List PoolRow) (u m : String) :
    update_user_shared_quota_max accounts (update_user_shared_quota_max accounts pool u m) u m
      = update_user_shared_quota_max accounts pool u m
    ∧ (pool.any (poolRowMatches u m) = false →
        update_user_shared_quota_max accounts pool u m
          = pool ++ [⟨u, m, 2 * (get_user_shared_cookie_count accounts u : ℚ),
                           2 * (get_user_shared_cookie_count accounts u : ℚ)⟩])
    ∧ (pool.any (poolRowMatches u m) = true →
        update_user_shared_quota_max accounts pool u m
          = pool.map (updatePoolRow u m (2 * (get_user_shared_cookie_count accounts u : ℚ))))
    ∧ (∀ (i : ℕ) (r r' : PoolRow), pool[i]? = some r →
        (update_user_shared_quota_max accounts pool u m)[i]? = some r' →
        r.quota ≤ r'.quota) := by
  set n2 : ℚ := 2 * (get_user_shared_cookie_count accounts u : ℚ) with hn2
  refine ⟨?_, update_qmax_eq_append accounts pool u m, update_qmax_eq_map accounts pool u m, ?_⟩
  · -- idempotence
    by_cases hany : pool.any (poolRowMatches u m) = true
    · rcases List.any_eq_true.mp hany with ⟨r0, hr0, hm0⟩
      have hany2 : (pool.map (updatePoolRow u m n2)).any (poolRowMatches u m) = true := by
        refine List.any_eq_true.mpr ⟨updatePoolRow u m n2 r0, List.mem_map_of_mem _ hr0, ?_⟩
        rw [poolRowMatches_updatePoolRow]; exact hm0
      rw [update_qmax_eq_map accounts pool u m hany,
        update_qmax_eq_map accounts _ u m hany2, List.map_map]
      exact List.map_congr_left (fun r _ => updatePoolRow_idem u m n2 r)
    · have hany' : pool.any (poolRowMatches u m) = false := by simpa using hany
      have hmnew : poolRowMatches u m (⟨u, m, n2, n2⟩ : PoolRow) = true := by
        simp [poolRowMatches]
      have hany2 : (pool ++ [⟨u, m, n2, n2⟩] : List PoolRow).any (poolRowMatches u m) = true := by
        refine List.any_eq_true.mpr ⟨⟨u, m, n2, n2⟩, by simp, hmnew⟩
      rw [update_qmax_eq_append accounts pool u m hany',
        update_qmax_eq_map accounts _ u m hany2, List.map_append]
      have h1 : pool.map (updatePoolRow u m n2) = pool := by
        have hid : ∀ r ∈ pool, updatePoolRow u m n2 r = id r := by
          intro r hr
          have := List.any_eq_false.mp hany' r hr
          simp [updatePoolRow, this]
        rw [List.map_congr_left hid, List.map_id]
      have h2 : ([⟨u, m, n2, n2⟩] : List PoolRow).map (updatePoolRow u m n2) =
          [⟨u, m, n2, n2⟩] := by
        simp [updatePoolRow, hmnew]
      rw [h1, h2]
  · -- monotonicity
    intro i r r' hr hr'
    by_cases hany : pool.any (poolRowMatches u m) = true
    · rw [update_qmax_eq_map accounts pool u m hany, List.getElem?_map, hr] at hr'
      simp only [Option.map_some', Option.some_inj] at hr'
      rw [← hr']
      by_cases h : poolRowMatches u m r = true
      · simp [updatePoolRow, h, le_max_left]
      · simp [updatePoolRow, h]
    · have hany' : pool.any (poolRowMatches u m) = false := by simpa using hany
      have hi : i < pool.length := by
        by_contra hlt
        rw [List.getElem?_eq_none (by omega)] at hr
        exact Option.noConfusion hr
      rw [update_qmax_eq_append accounts pool u m hany',
        List.getElem?_append_left hi, hr] at hr'
      simp only [Option.some_inj] at hr'
      subst hr'
      exact le_refl _

/-- C2 witness at a concrete input: one enabled shared account for `"u"`,
pool row `quota = 1, max_quota = 2`; recheck idempotence and that the row's
quota did not decrease. -/
theorem claim2_recompute_witness :
    update_user_shared_quota_max [⟨"u", 1, 1⟩]
        (update_user_shared_quota_max [⟨"u", 1, 1⟩] [⟨"u", "m", 1, 2⟩] "u" "m") "u" "m"
      = update_user_shared_quota_max [⟨"u", 1, 1⟩] [⟨"u", "m", 1, 2⟩] "u" "m"
    ∧ (1 : ℚ) ≤ (2 : ℚ) := by
  refine ⟨(claim2_recompute_idempotent_monotone [⟨"u", 1, 1⟩] [⟨"u", "m", 1, 2⟩] "u" "m").1, ?_⟩
  exact (claim2_recompute_idempotent_monotone [⟨"u", 1, 1⟩] [⟨"u", "m", 1, 2⟩] "u" "m").2.2.2
    0 ⟨"u", "m", 1, 2⟩ ⟨"u", "m", 2, 2⟩ (by decide)
    (by simp [update_user_shared_quota_max, get_user_shared_cookie_count, poolRowMatches,
      updatePoolRow])

/-- C3 counterexample: with four enabled shared accounts for user `"u"` and a
pool row `quota = 1.5, max_quota = 6`, recomputation yields
`quota = max_quota = 8`: the current quota is raised to 8, not left untouched,
even though `1.5 < 8`.  This contradicts the claim that current is untouched
whenever it is below 8. -/
theorem claim3_topup_cex :
    update_user_shared_quota_max [⟨"u", 1, 1⟩, ⟨"u", 1, 1⟩, ⟨"u", 1, 1⟩, ⟨"u", 1, 1⟩]
        [⟨"u", "m", 3/2, 6⟩] "u" "m" = [⟨"u", "m", 8, 8⟩]
    ∧ ((3 : ℚ)/2) < 8 ∧ ((3 : ℚ)/2) ≠ 8 := by
  refine ⟨?_, by norm_num, by norm_num⟩
  simp [update_user_shared_quota_max, get_user_shared_cookie_count, poolRowMatches,
    updatePoolRow]
  norm_num

/-- C3 amended: when the enabled shared-account count for the user is 4 and
the pool row for `(u, m)` exists, recomputation sets `max_quota := 8` and
`quota := max quota 8`: the current quota is raised to 8.0 whenever it was
below 8.0, and left untouched only when it was already at least 8.0. -/
theorem claim3_topup_amended (accounts : List SqlAccount) (u m : String) (q mq : ℚ)
    (hc : get_user_shared_cookie_count accounts u = 4) :
    update_user_shared_quota_max accounts [⟨u, m, q, mq⟩] u m = [⟨u, m, max q 8, 8⟩] := by
  have hm : poolRowMatches u m (⟨u, m, q, mq⟩ : PoolRow) = true := by simp [poolRowMatches]
  have hany : ([⟨u, m, q, mq⟩] : List PoolRow).any (poolRowMatches u m) = true := by
    simp [hm]
  rw [update_qmax_eq_map accounts _ u m hany, hc]
  norm_num [updatePoolRow, hm]

/-- C3 amended witness at a concrete input. -/
theorem claim3_topup_witness :
    update_user_shared_quota_max [⟨"u", 1, 1⟩, ⟨"u", 1, 1⟩, ⟨"u", 1, 1⟩, ⟨"u", 1, 1⟩]
        [⟨"u", "m", 3/2, 6⟩] "u" "m" = [⟨"u", "m", max (3/2) 8, 8⟩]
    ∧ max ((3 : ℚ)/2) 8 = 8 := by
  refine ⟨claim3_topup_amended _ "u" "m" (3/2) 6 (by decide), by norm_num⟩

/-! ### Theorems for claims C6 and C10 -/

/-- C6: a log row is produced exactly when both quota figures are known, and
the recorded delta is `max 0 (before − after)` — equal to the clamp computed
in `generateResponse`, never negative, and zero whenever the quota increased
during the exchange (upstream reset). -/
theorem claim6_consumption_delta :
    (∀ qb qa : Option ℚ, (finalizeQuota qb qa).isSome = (qb.isSome && qa.isSome))
    ∧ (∀ b a : ℚ,
        (recordQuotaConsumption b a).quota_consumed = max 0 (b - a)
        ∧ (recordQuotaConsumption b a).quota_consumed = clientConsumed b a
        ∧ 0 ≤ (recordQuotaConsumption b a).quota_consumed
        ∧ (b < a → (recordQuotaConsumption b a).quota_consumed = 0)) := by
  constructor
  · intro qb qa
    cases qb <;> cases qa <;> simp [finalizeQuota]
  · intro b a
    refine ⟨rfl, ?_, le_max_left _ _, ?_⟩
    · by_cases h : b - a < 0
      · simp [recordQuotaConsumption, clientConsumed, h, max_eq_left (le_of_lt h)]
      · simp [recordQuotaConsumption, clientConsumed, h, max_eq_right (le_of_not_lt h)]
    · intro hba
      have h : b - a < 0 := by linarith
      simp [recordQuotaConsumption, max_eq_left (le_of_lt h)]

/-- C6 witness: quota reset mid-exchange (`before = 1/4 < after = 1`) logs a
zero delta. -/
theorem claim6_consumption_witness :
    (recordQuotaConsumption (1/4) 1).quota_consumed = 0 ∧ ((1 : ℚ)/4) < 1 := by
  refine ⟨(claim6_consumption_delta.2 (1/4) 1).2.2.2 (by norm_num), by norm_num⟩

/-- Helper: with no matching call anywhere, every model message's first-match
name is empty. -/
theorem firstMatchName_eq_empty (parts : List GPart) (callId : String)
    (h : parts.all (fun p =>
      match p.functionCall with
      | some fc => !(fc.id == callId)
      | none => true) = true) :
    firstMatchName parts callId = "" := by
  have hfind : parts.find? (fun p =>
      match p.functionCall with
      | some fc => fc.id == callId
      | none => false) = none := by
    apply List.find?_eq_none.mpr
    intro p hp
    have := List.all_eq_true.mp h p hp
    cases hfc : p.functionCall with
    | none => simp [hfc]
    | some fc =>
      simp only [hfc] at this ⊢
      simpa using this
  simp [firstMatchName, hfind]

/-- Helper: the backward scan yields the empty name when no message matches. -/
theorem findFunctionNameRev_eq_empty (msgs : List AntigravityMessage) (callId : String)
    (h : ∀ mg ∈ msgs, mg.role = "model" → firstMatchName mg.parts callId = "") :
    findFunctionNameRev msgs callId = "" := by
  induction msgs with
  | nil => rfl
  | cons msg rest ih =>
    by_cases hrole : msg.role = "model"
    · have hn := h msg (List.mem_cons_self _ _) hrole
      simp [findFunctionNameRev, hrole, hn]
      exact ih (fun mg hmg => h mg (List.mem_cons_of_mem _ hmg))
    · have : (msg.role == "model") = false := by simpa using hrole
      simp [findFunctionNameRev, this]
      exact ih (fun mg hmg => h mg (List.mem_cons_of_mem _ hmg))

/-- C10: a tool-result message whose `tool_call_id` matches no `functionCall`
in any prior model turn is still translated: exactly one `functionResponse`
part carrying the original call id and the empty string as tool name is
appended to the conversation's parts, and no part is dropped. -/
theorem claim10_unmatched_tool_result (message : ToolMessage)
    (msgs : List AntigravityMessage)
    (hno : hasMatchingCall msgs message.tool_call_id = false) :
    allParts (handleToolCall message msgs)
      = allParts msgs
        ++ [{ functionResponse := some ⟨message.tool_call_id, "", message.content⟩ }] := by
  have hname : findFunctionName msgs message.tool_call_id = "" := by
    unfold findFunctionName
    apply findFunctionNameRev_eq_empty
    intro mg hmg hrole
    have hmg' : mg ∈ msgs := List.mem_reverse.mp hmg
    have hnone := List.any_eq_false.mp hno mg hmg'
    apply firstMatchName_eq_empty
    rw [List.all_eq_true]
    intro p hp
    cases hval : mg.parts.any (fun p =>
        match p.functionCall with
        | some fc => fc.id == message.tool_call_id
        | none => false) with
    | true =>
      exfalso
      apply hnone
      rw [Bool.and_eq_true]
      exact ⟨by simp [hrole], hval⟩
    | false =>
      have hp' := List.any_eq_false.mp hval p hp
      cases hfc : p.functionCall with
      | none => simp
      | some fc =>
        simp only [hfc] at hp' ⊢
        simpa using hp'
  unfold handleToolCall
  rw [hname]
  cases hlast : msgs.getLast? with
  | none =>
    have : msgs = [] := by
      cases msgs with
      | nil => rfl
      | cons a l => simp at hlast
    subst this
    simp [allParts]
  | some lastMessage =>
    by_cases hcond : (lastMessage.role == "user"
        && lastMessage.parts.any (fun p => p.functionResponse.isSome)) = true
    · simp only [hcond, if_pos]
      have hne : msgs ≠ [] := by
        intro hemp
        rw [hemp] at hlast
        exact Option.noConfusion hlast
      have hsplit : msgs = msgs.dropLast ++ [lastMessage] := by
        have := List.dropLast_append_getLast hne
        rw [List.getLast?_eq_getLast msgs hne] at hlast
        have hl : msgs.getLast hne = lastMessage := by
          injection hlast
        rw [← hl]
        exact this.symm
      conv_rhs => rw [hsplit]
      simp [allParts, List.map_append, List.flatten_append]
    · simp only [hcond, Bool.false_eq_true, if_neg, not_false_iff]
      simp [allParts, List.map_append, List.flatten_append]

/-- C10 witness: a tool result whose id matches nothing (the only model turn
calls `"id1"`, the result references `"id2"`). -/
theorem claim10_unmatched_witness :
    allParts (handleToolCall ⟨"id2", "out"⟩
        [⟨"model", [{ functionCall := some ⟨"id1", "tool", "{}"⟩ }]⟩])
      = allParts [⟨"model", [{ functionCall := some ⟨"id1", "tool", "{}"⟩ }]⟩]
        ++ [{ functionResponse := some ⟨"id2", "", "out"⟩ }] := by
  exact claim10_unmatched_tool_result ⟨"id2", "out"⟩
    [⟨"model", [{ functionCall := some ⟨"id1", "tool", "{}"⟩ }]⟩] (by decide)

/-! ### Theorems for claims C4 and C5 -/

/-- Helper: the winning pool is a sub-collection of the filtered candidates. -/
theorem selectedPool_subset (ps : Int) (avail : List DbAccount) :
    ∀ x ∈ selectedPool ps avail, x ∈ avail := by
  intro x hx
  unfold selectedPool at hx
  split at hx <;> split at hx <;> exact List.mem_of_mem_filter hx

/-- Helper: a successfully selected account lies in the winning pool, in the
filtered candidates, in the non-excluded candidates, and is not excluded. -/
theorem selectAccount_ok_mem (db : List DbAccount) (user_id : String) (preferShared : Int)
    (excludeCookieIds : List String) (modelAvail : String → Bool)
    (sharedModels : List String) (userPool : String → Option ℚ) (randIdx : Nat)
    (account : DbAccount)
    (hsel : selectAccount db user_id preferShared excludeCookieIds modelAvail sharedModels
      userPool randIdx = .ok account) :
    account ∈ selectedPool preferShared (availableAccounts modelAvail sharedModels userPool
        (nonExcluded excludeCookieIds (orderedAccounts db user_id preferShared)))
    ∧ account ∈ availableAccounts modelAvail sharedModels userPool
        (nonExcluded excludeCookieIds (orderedAccounts db user_id preferShared))
    ∧ account ∈ nonExcluded excludeCookieIds (orderedAccounts db user_id preferShared)
    ∧ excludeCookieIds.contains account.cookie_id = false := by
  unfold selectAccount at hsel
  simp only [] at hsel
  split at hsel
  · exact absurd hsel (by simp)
  · split at hsel
    · exact absurd hsel (by simp)
    · split at hsel
      case _ a heq =>
        have ha : a = account := by injection hsel
        subst ha
        have hpool := List.getElem?_mem heq
        have havail := selectedPool_subset _ _ _ hpool
        have hacc := List.mem_of_mem_filter havail
        refine ⟨hpool, havail, hacc, ?_⟩
        have := (List.mem_filter.mp hacc).2
        simpa using this
      case _ => exact absurd hsel (by simp)

/-- Helper: accounts returned by a query with a concrete sharing flag carry
that flag. -/
theorem getAvailableAccounts_is_shared (db : List DbAccount) (u : Option String) (s : Int) :
    ∀ a ∈ getAvailableAccounts db u (some s), a.is_shared = s := by
  intro a ha
  have := (List.mem_filter.mp ha).2
  simp only [Bool.and_eq_true] at this
  have hs := this.1.2
  simpa using hs

/-- C4: with `prefer_shared = 0` and an empty exclusion set, whenever some
enabled dedicated account of the user is eligible (model available), the
winning pool is exactly the dedicated part of the filtered candidates, the
selection returns a dedicated account (never a shared one) for every random
index, and index `i` picks exactly the `i`-th element of that pool (uniform
support within the first non-empty pool only). -/
theorem claim4_dedicated_first (db : List DbAccount) (user_id : String)
    (modelAvail : String → Bool) (sharedModels : List String) (userPool : String → Option ℚ)
    (hded : ∃ a ∈ getAvailableAccounts db (some user_id) (some 0),
      modelAvail a.cookie_id = true) :
    selectedPool 0 (availableAccounts modelAvail sharedModels userPool
        (nonExcluded [] (orderedAccounts db user_id 0)))
      = (availableAccounts modelAvail sharedModels userPool
          (nonExcluded [] (orderedAccounts db user_id 0))).filter (fun a => a.is_shared == 0)
    ∧ (∀ randIdx : Nat, ∃ account,
        selectAccount db user_id 0 [] modelAvail sharedModels userPool randIdx = .ok account
        ∧ account.is_shared = 0
        ∧ account ∈ (availableAccounts modelAvail sharedModels userPool
            (nonExcluded [] (orderedAccounts db user_id 0))).filter (fun a => a.is_shared == 0))
    ∧ (∀ (i : Nat) (hi : i < (selectedPool 0 (availableAccounts modelAvail sharedModels userPool
          (nonExcluded [] (orderedAccounts db user_id 0)))).length),
        selectAccount db user_id 0 [] modelAvail sharedModels userPool i
          = .ok ((selectedPool 0 (availableAccounts modelAvail sharedModels userPool
              (nonExcluded [] (orderedAccounts db user_id 0)))).get ⟨i, hi⟩)) := by
  obtain ⟨a0, ha0, hma⟩ := hded
  have hordeq : orderedAccounts db user_id 0
      = getAvailableAccounts db (some user_id) (some 0)
        ++ getAvailableAccounts db none (some 1) := by
    unfold orderedAccounts
    norm_num
  have hne : nonExcluded [] (orderedAccounts db user_id 0) = orderedAccounts db user_id 0 := by
    simp [nonExcluded]
  have ha0s : a0.is_shared = 0 := getAvailableAccounts_is_shared db (some user_id) 0 a0 ha0
  have ha0ord : a0 ∈ orderedAccounts db user_id 0 := by
    rw [hordeq]; exact List.mem_append_left _ ha0
  have ha0avail : a0 ∈ availableAccounts modelAvail sharedModels userPool
      (nonExcluded [] (orderedAccounts db user_id 0)) := by
    unfold availableAccounts
    rw [hne]
    exact List.mem_filter.mpr ⟨ha0ord, by simp [hma, ha0s]⟩
  have ha0d : a0 ∈ (availableAccounts modelAvail sharedModels userPool
      (nonExcluded [] (orderedAccounts db user_id 0))).filter (fun a => a.is_shared == 0) :=
    List.mem_filter.mpr ⟨ha0avail, by simp [ha0s]⟩
  have hdne : ((availableAccounts modelAvail sharedModels userPool
      (nonExcluded [] (orderedAccounts db user_id 0))).filter
        (fun a => a.is_shared == 0)).isEmpty = false := by
    rw [List.isEmpty_eq_false]
    exact List.ne_nil_of_mem ha0d
  have hpool : selectedPool 0 (availableAccounts modelAvail sharedModels userPool
        (nonExcluded [] (orderedAccounts db user_id 0)))
      = (availableAccounts modelAvail sharedModels userPool
          (nonExcluded [] (orderedAccounts db user_id 0))).filter (fun a => a.is_shared == 0) := by
    unfold selectedPool
    norm_num [hdne]
  have hplen : 0 < (selectedPool 0 (availableAccounts modelAvail sharedModels userPool
      (nonExcluded [] (orderedAccounts db user_id 0)))).length := by
    rw [hpool]
    exact List.length_pos.mpr (List.ne_nil_of_mem ha0d)
  have hkey : ∀ r : Nat, selectAccount db user_id 0 [] modelAvail sharedModels userPool r
      = .ok ((selectedPool 0 (availableAccounts modelAvail sharedModels userPool
          (nonExcluded [] (orderedAccounts db user_id 0)))).get
            ⟨r % (selectedPool 0 (availableAccounts modelAvail sharedModels userPool
              (nonExcluded [] (orderedAccounts db user_id 0)))).length, Nat.mod_lt r hplen⟩) := by
    intro r
    have haccne : (nonExcluded [] (orderedAccounts db user_id 0)).isEmpty = false := by
      rw [List.isEmpty_eq_false, hne]
      exact List.ne_nil_of_mem ha0ord
    have havailne : (availableAccounts modelAvail sharedModels userPool
        (nonExcluded [] (orderedAccounts db user_id 0))).isEmpty = false := by
      rw [List.isEmpty_eq_false]
      exact List.ne_nil_of_mem ha0avail
    unfold selectAccount
    simp only [haccne, havailne, Bool.false_eq_true, if_neg, not_false_iff]
    rw [List.getElem?_eq_getElem (Nat.mod_lt r hplen)]
    simp [List.get_eq_getElem]
  refine ⟨hpool, ?_, ?_⟩
  · intro randIdx
    refine ⟨_, hkey randIdx, ?_, ?_⟩
    · have hmem' : (selectedPool 0 (availableAccounts modelAvail sharedModels userPool
          (nonExcluded [] (orderedAccounts db user_id 0)))).get
            ⟨randIdx % _, Nat.mod_lt randIdx hplen⟩
          ∈ (availableAccounts modelAvail sharedModels userPool
              (nonExcluded [] (orderedAccounts db user_id 0))).filter
                (fun a => a.is_shared == 0) := by
        rw [← hpool]
        exact List.get_mem _ _ _
      have := (List.mem_filter.mp hmem').2
      simpa using this
    · rw [← hpool]
      exact List.get_mem _ _ _
  · intro i hi
    have hk := hkey i
    have hfin : (⟨i % (selectedPool 0 (availableAccounts modelAvail sharedModels userPool
          (nonExcluded [] (orderedAccounts db user_id 0)))).length, Nat.mod_lt i hplen⟩ :
            Fin (selectedPool 0 (availableAccounts modelAvail sharedModels userPool
              (nonExcluded [] (orderedAccounts db user_id 0)))).length)
        = ⟨i, hi⟩ := Fin.ext (Nat.mod_eq_of_lt hi)
    rw [hfin] at hk
    exact hk

/-- C4 witness: one enabled dedicated account, model available, empty
exclusion set. -/
theorem claim4_dedicated_witness : ∃ account,
    selectAccount [⟨"c1", "u", 0, 1, false, none⟩] "u" 0 [] (fun _ => true) []
        (fun _ => none) 5 = .ok account
    ∧ account.is_shared = 0
    ∧ account ∈ (availableAccounts (fun _ => true) [] (fun _ => none)
        (nonExcluded [] (orderedAccounts [⟨"c1", "u", 0, 1, false, none⟩] "u" 0))).filter
          (fun a => a.is_shared == 0) :=
  (claim4_dedicated_first [⟨"c1", "u", 0, 1, false, none⟩] "u" (fun _ => true) []
    (fun _ => none) ⟨⟨"c1", "u", 0, 1, false, none⟩, by decide, rfl⟩).2.1 5

/-- C5: the retry loop makes strict progress and terminates.  (Totality of
`getAvailableAccount` — accepted by well-founded recursion on the number of
non-excluded candidates — is itself the termination argument.)  First, once
the exclusion set covers every candidate account, selection fails with the
no-account-available error instead of recursing.  Second, whenever the
selected account's token is expired and the refresh fails, the call equals
the recursive call whose exclusion list is the old one extended with the
failed account's id — an id not previously excluded, so the exclusion set
strictly grows by one. -/
theorem claim5_exclusion_progress (db : List DbAccount) (user_id : String)
    (preferShared : Int) (modelAvail : String → Bool) (sharedModels : List String)
    (userPool : String → Option ℚ) (now : Int) (refreshOk : String → Bool)
    (rand : Nat → Nat) (excludeCookieIds : List String) :
    ((∀ a ∈ orderedAccounts db user_id preferShared,
        excludeCookieIds.contains a.cookie_id = true) →
      getAvailableAccount db user_id preferShared modelAvail sharedModels userPool now
        refreshOk rand excludeCookieIds = .error .noAccounts)
    ∧ (∀ account : DbAccount,
        selectAccount db user_id preferShared excludeCookieIds modelAvail sharedModels
          userPool (rand excludeCookieIds.length) = .ok account →
        isTokenExpired account now = true →
        refreshOk account.cookie_id = false →
        getAvailableAccount db user_id preferShared modelAvail sharedModels userPool now
            refreshOk rand excludeCookieIds
          = getAvailableAccount db user_id preferShared modelAvail sharedModels userPool now
              refreshOk rand (excludeCookieIds ++ [account.cookie_id])
        ∧ excludeCookieIds.contains account.cookie_id = false
        ∧ (excludeCookieIds ++ [account.cookie_id]).length = excludeCookieIds.length + 1) := by
  constructor
  · intro hcov
    have hempty : nonExcluded excludeCookieIds (orderedAccounts db user_id preferShared) = [] := by
      unfold nonExcluded
      rw [List.filter_eq_nil_iff]
      intro a ha
      have := hcov a ha
      simp only [Bool.not_eq_true]
      simpa using this
    have hsel : selectAccount db user_id preferShared excludeCookieIds modelAvail sharedModels
        userPool (rand excludeCookieIds.length) = .error .noAccounts := by
      unfold selectAccount
      simp [hempty]
    unfold getAvailableAccount
    split
    case _ e he =>
      rw [hsel] at he
      injection he with h
      rw [h]
    case _ acct hacct =>
      rw [hsel] at hacct
      exact absurd hacct (by simp)
  · intro account hsel hexp href
    refine ⟨?_, ?_, by simp⟩
    · conv_lhs => rw [getAvailableAccount]
      split
      case _ e he =>
        rw [hsel] at he
        exact absurd he (by simp)
      case _ acct hacct =>
        rw [hsel] at hacct
        have heq2 : account = acct := by injection hacct
        subst heq2
        rw [if_pos hexp, if_neg (by simp [href])]
    · exact (selectAccount_ok_mem db user_id preferShared excludeCookieIds modelAvail
        sharedModels userPool (rand excludeCookieIds.length) account hsel).2.2.2

/-- C5 witness: one dedicated account with no recorded expiry (hence expired)
whose refresh fails; with it excluded, coverage makes selection fail. -/
theorem claim5_exclusion_witness :
    (getAvailableAccount [⟨"c1", "u", 0, 1, false, none⟩] "u" 0 (fun _ => true) []
        (fun _ => none) 0 (fun _ => false) (fun _ => 0) ["c1"] = .error .noAccounts)
    ∧ (getAvailableAccount [⟨"c1", "u", 0, 1, false, none⟩] "u" 0 (fun _ => true) []
          (fun _ => none) 0 (fun _ => false) (fun _ => 0) []
        = getAvailableAccount [⟨"c1", "u", 0, 1, false, none⟩] "u" 0 (fun _ => true) []
            (fun _ => none) 0 (fun _ => false) (fun _ => 0) ["c1"]
      ∧ ([] : List String).contains "c1" = false
      ∧ (([] : List String) ++ ["c1"]).length = ([] : List String).length + 1) := by
  constructor
  · exact (claim5_exclusion_progress [⟨"c1", "u", 0, 1, false, none⟩] "u" 0 (fun _ => true)
      [] (fun _ => none) 0 (fun _ => false) (fun _ => 0) ["c1"]).1 (by decide)
  · have := (claim5_exclusion_progress [⟨"c1", "u", 0, 1, false, none⟩] "u" 0 (fun _ => true)
      [] (fun _ => none) 0 (fun _ => false) (fun _ => 0) []).2
      ⟨"c1", "u", 0, 1, false, none⟩ rfl rfl rfl
    exact this

/-! ### Theorems for claim C9 -/

/-- Helper: normalizing an object yields an object (when it succeeds). -/
theorem normalizeJsonSchema_obj_shape (kvs : List (String × JsonVal)) (j' : JsonVal)
    (h : normalizeJsonSchema (.obj kvs) = some j') :
    ∃ es, j' = .obj es ∧ normEntries kvs = some es := by
  simp only [normalizeJsonSchema] at h
  cases he : normEntries kvs with
  | none => rw [he] at h; simp at h
  | some es =>
    rw [he] at h
    simp at h
    exact ⟨es, h.symm, rfl⟩

/-- Helper: normalizing an array yields an array (when it succeeds). -/
theorem normalizeJsonSchema_arr_shape (xs : List JsonVal) (j' : JsonVal)
    (h : normalizeJsonSchema (.arr xs) = some j') :
    ∃ ys, j' = .arr ys ∧ normSeq xs = some ys := by
  simp only [normalizeJsonSchema] at h
  cases he : normSeq xs with
  | none => rw [he] at h; simp at h
  | some ys =>
    rw [he] at h
    simp at h
    exact ⟨ys, h.symm, rfl⟩

/-- Helper: one-step unfolding of `normEntries` on a cons cell, with the
value match made explicit (proved by cases on the value, definitionally). -/
theorem normEntries_cons_eq (k : String) (v : JsonVal) (rest : List (String × JsonVal)) :
    normEntries ((k, v) :: rest) =
      if UNSUPPORTED_SCHEMA_KEYS.contains k then normEntries rest
      else if k == "properties" then
        match v with
        | .obj pvs =>
          (match normPropValues pvs, normEntries rest with
           | some pvs2, some rest2 => some ((k, JsonVal.obj pvs2) :: rest2)
           | _, _ => none)
        | .null => none
        | _ =>
          (match normEntries rest with
           | some rest2 => some ((k, v) :: rest2)
           | none => none)
      else if k == "items" then
        (match normalizeJsonSchema v, normEntries rest with
         | some v2, some rest2 => some ((k, v2) :: rest2)
         | _, _ => none)
      else if k == "additionalProperties" then
        match v with
        | .obj pvs =>
          (match normalizeJsonSchema (.obj pvs), normEntries rest with
           | some v2, some rest2 => some ((k, v2) :: rest2)
           | _, _ => none)
        | .arr xs =>
          (match normalizeJsonSchema (.arr xs), normEntries rest with
           | some v2, some rest2 => some ((k, v2) :: rest2)
           | _, _ => none)
        | .null =>
          (match normEntries rest with
           | some rest2 => some ((k, JsonVal.null) :: rest2)
           | none => none)
        | _ =>
          (match normEntries rest with
           | some rest2 => some ((k, v) :: rest2)
           | none => none)
      else
        (match normEntries rest with
         | some rest2 => some ((k, v) :: rest2)
         | none => none) := by
  cases v <;> rfl

mutual

/-- Helper (C9 idempotence, value level): a successful normalization output
normalizes to itself. -/
theorem normalizeJsonSchema_idem :
    ∀ (j j' : JsonVal), normalizeJsonSchema j = some j' → normalizeJsonSchema j' = some j'
  | .null, j', h => by
    rw [show normalizeJsonSchema .null = some .null from rfl] at h
    injection h with h
    subst h
    rfl
  | .bool b, j', h => by
    rw [show normalizeJsonSchema (.bool b) = some (.bool b) from rfl] at h
    injection h with h
    subst h
    rfl
  | .num n, j', h => by
    rw [show normalizeJsonSchema (.num n) = some (.num n) from rfl] at h
    injection h with h
    subst h
    rfl
  | .str s, j', h => by
    rw [show normalizeJsonSchema (.str s) = some (.str s) from rfl] at h
    injection h with h
    subst h
    rfl
  | .arr xs, j', h => by
    obtain ⟨ys, rfl, hs⟩ := normalizeJsonSchema_arr_shape xs j' h
    have := normSeq_idem xs ys hs
    simp [normalizeJsonSchema, this]
  | .obj kvs, j', h => by
    obtain ⟨es, rfl, he⟩ := normalizeJsonSchema_obj_shape kvs j' h
    have := normEntries_idem kvs es he
    simp [normalizeJsonSchema, this]

/-- Helper (C9 idempotence, array level). -/
theorem normSeq_idem :
    ∀ (xs ys : List JsonVal), normSeq xs = some ys → normSeq ys = some ys
  | [], ys, h => by
    rw [show normSeq [] = some [] from rfl] at h
    injection h with h
    subst h
    rfl
  | x :: xs, ys, h => by
    rw [show normSeq (x :: xs) =
      (match normalizeJsonSchema x, normSeq xs with
       | some y, some ys => some (y :: ys)
       | _, _ => none) from rfl] at h
    split at h
    case _ y ys2 hx hxs =>
      injection h with h
      subst h
      have h1 := normalizeJsonSchema_idem x y hx
      have h2 := normSeq_idem xs ys2 hxs
      rw [show normSeq (y :: ys2) =
        (match normalizeJsonSchema y, normSeq ys2 with
         | some y, some ys => some (y :: ys)
         | _, _ => none) from rfl]
      rw [h1, h2]
    case _ =>
      exact absurd h (by simp)

/-- Helper (C9 idempotence, `properties` level). -/
theorem normPropValues_idem :
    ∀ (kvs es : List (String × JsonVal)), normPropValues kvs = some es →
      normPropValues es = some es
  | [], es, h => by
    rw [show normPropValues [] = some [] from rfl] at h
    injection h with h
    subst h
    rfl
  | (k, v) :: rest, es, h => by
    rw [show normPropValues ((k, v) :: rest) =
      (match normalizeJsonSchema v, normPropValues rest with
       | some v2, some rest2 => some ((k, v2) :: rest2)
       | _, _ => none) from rfl] at h
    split at h
    case _ v2 rest2 hv hr =>
      injection h with h
      subst h
      have h1 := normalizeJsonSchema_idem v v2 hv
      have h2 := normPropValues_idem rest rest2 hr
      rw [show normPropValues ((k, v2) :: rest2) =
        (match normalizeJsonSchema v2, normPropValues rest2 with
         | some v3, some rest3 => some ((k, v3) :: rest3)
         | _, _ => none) from rfl]
      rw [h1, h2]
    case _ =>
      exact absurd h (by simp)

/-- Helper (C9 idempotence, object-entry level). -/
theorem normEntries_idem :
    ∀ (kvs es : List (String × JsonVal)), normEntries kvs = some es →
      normEntries es = some es
  | [], es, h => by
    rw [show normEntries [] = some [] from rfl] at h
    injection h with h
    subst h
    rfl
  | (k, v) :: rest, es, h => by
    rw [normEntries_cons_eq] at h
    split at h
    case isTrue hk =>
      exact normEntries_idem rest es h
    case isFalse hk =>
      split at h
      case isTrue hp =>
        -- properties branch
        split at h
        case _ pvs =>
          split at h
          case _ pvs2 rest2 hpv hr =>
            injection h with h
            subst h
            have h1 := normPropValues_idem pvs pvs2 hpv
            have h2 := normEntries_idem rest rest2 hr
            rw [normEntries_cons_eq, if_neg hk, if_pos hp]
            simp [h1, h2]
          case _ =>
            exact absurd h (by simp)
        case _ =>
          exact absurd h (by simp)
        case _ hnotobj hnotnull =>
          split at h
          case _ rest2 hr =>
            injection h with h
            subst h
            have h2 := normEntries_idem rest rest2 hr
            rw [normEntries_cons_eq, if_neg hk, if_pos hp]
            cases v with
            | obj pvs => exact absurd rfl (hnotobj pvs)
            | null => exact absurd rfl hnotnull
            | bool b => simp [h2]
            | num n => simp [h2]
            | str s => simp [h2]
            | arr xs => simp [h2]
          case _ =>
            exact absurd h (by simp)
      case isFalse hp =>
        split at h
        case isTrue hi =>
          -- items branch
          split at h
          case _ v2 rest2 hv hr =>
            injection h with h
            subst h
            have h1 := normalizeJsonSchema_idem v v2 hv
            have h2 := normEntries_idem rest rest2 hr
            rw [normEntries_cons_eq, if_neg hk, if_neg hp, if_pos hi]
            rw [h1, h2]
          case _ =>
            exact absurd h (by simp)
        case isFalse hi =>
          split at h
          case isTrue ha =>
            -- additionalProperties branch
            split at h
            case _ pvs =>
              split at h
              case _ v2 rest2 hv hr =>
                injection h with h
                subst h
                obtain ⟨es2, rfl, _⟩ := normalizeJsonSchema_obj_shape pvs v2 hv
                have h1 := normalizeJsonSchema_idem (.obj pvs) (.obj es2) hv
                have h2 := normEntries_idem rest rest2 hr
                rw [normEntries_cons_eq, if_neg hk, if_neg hp, if_neg hi, if_pos ha]
                simp [h1, h2]
              case _ =>
                exact absurd h (by simp)
            case _ xs =>
              split at h
              case _ v2 rest2 hv hr =>
                injection h with h
                subst h
                obtain ⟨ys2, rfl, _⟩ := normalizeJsonSchema_arr_shape xs v2 hv
                have h1 := normalizeJsonSchema_idem (.arr xs) (.arr ys2) hv
                have h2 := normEntries_idem rest rest2 hr
                rw [normEntries_cons_eq, if_neg hk, if_neg hp, if_neg hi, if_pos ha]
                simp [h1, h2]
              case _ =>
                exact absurd h (by simp)
            case _ =>
              -- v = null
              split at h
              case _ rest2 hr =>
                injection h with h
                subst h
                have h2 := normEntries_idem rest rest2 hr
                rw [normEntries_cons_eq, if_neg hk, if_neg hp, if_neg hi, if_pos ha]
                simp [h2]
              case _ =>
                exact absurd h (by simp)
            case _ hnotobj hnotarr hnotnull =>
              split at h
              case _ rest2 hr =>
                injection h with h
                subst h
                have h2 := normEntries_idem rest rest2 hr
                rw [normEntries_cons_eq, if_neg hk, if_neg hp, if_neg hi, if_pos ha]
                cases v with
                | obj pvs => exact absurd rfl (hnotobj pvs)
                | arr xs => exact absurd rfl (hnotarr xs)
                | null => exact absurd rfl hnotnull
                | bool b => simp [h2]
                | num n => simp [h2]
                | str s => simp [h2]
              case _ =>
                exact absurd h (by simp)
          case isFalse ha =>
            split at h
            case _ rest2 hr =>
              injection h with h
              subst h
              have h2 := normEntries_idem rest rest2 hr
              rw [normEntries_cons_eq, if_neg hk, if_neg hp, if_neg hi, if_neg ha]
              simp [h2]
            case _ =>
              exact absurd h (by simp)

end

/-- Helper: one-step unfolding of `cleanEntries` on a cons cell with the
value match made explicit. -/
theorem cleanEntries_cons_eq (k : String) (v : JsonVal) (rest : List (String × JsonVal)) :
    cleanEntries ((k, v) :: rest) =
      (!UNSUPPORTED_SCHEMA_KEYS.contains k
       && (if k == "properties" then
             match v with
             | .obj pvs => cleanPropValues pvs
             | _ => true
           else if k == "items" then schemaClean v
           else if k == "additionalProperties" then
             match v with
             | .obj pvs => schemaClean (.obj pvs)
             | .arr xs => schemaClean (.arr xs)
             | .null => true
             | _ => true
           else true)
       && cleanEntries rest) := by
  cases v <;> rfl

mutual

/-- Helper (C9 cleanliness, value level): a successful normalization output
carries no blacklisted keyword at any position the normalizer rewrites. -/
theorem normalizeJsonSchema_clean :
    ∀ (j j' : JsonVal), normalizeJsonSchema j = some j' → schemaClean j' = true
  | .null, j', h => by
    rw [show normalizeJsonSchema .null = some .null from rfl] at h
    injection h with h
    subst h
    rfl
  | .bool b, j', h => by
    rw [show normalizeJsonSchema (.bool b) = some (.bool b) from rfl] at h
    injection h with h
    subst h
    rfl
  | .num n, j', h => by
    rw [show normalizeJsonSchema (.num n) = some (.num n) from rfl] at h
    injection h with h
    subst h
    rfl
  | .str s, j', h => by
    rw [show normalizeJsonSchema (.str s) = some (.str s) from rfl] at h
    injection h with h
    subst h
    rfl
  | .arr xs, j', h => by
    obtain ⟨ys, rfl, hs⟩ := normalizeJsonSchema_arr_shape xs j' h
    have := normSeq_clean xs ys hs
    simpa [schemaClean] using this
  | .obj kvs, j', h => by
    obtain ⟨es, rfl, he⟩ := normalizeJsonSchema_obj_shape kvs j' h
    have := normEntries_clean kvs es he
    simpa [schemaClean] using this

/-- Helper (C9 cleanliness, array level). -/
theorem normSeq_clean :
    ∀ (xs ys : List JsonVal), normSeq xs = some ys → cleanSeq ys = true
  | [], ys, h => by
    rw [show normSeq [] = some [] from rfl] at h
    injection h with h
    subst h
    rfl
  | x :: xs, ys, h => by
    rw [show normSeq (x :: xs) =
      (match normalizeJsonSchema x, normSeq xs with
       | some y, some ys => some (y :: ys)
       | _, _ => none) from rfl] at h
    split at h
    case _ y ys2 hx hxs =>
      injection h with h
      subst h
      have h1 := normalizeJsonSchema_clean x y hx
      have h2 := normSeq_clean xs ys2 hxs
      simp [cleanSeq, h1, h2]
    case _ =>
      exact absurd h (by simp)

/-- Helper (C9 cleanliness, `properties` level). -/
theorem normPropValues_clean :
    ∀ (kvs es : List (String × JsonVal)), normPropValues kvs = some es →
      cleanPropValues es = true
  | [], es, h => by
    rw [show normPropValues [] = some [] from rfl] at h
    injection h with h
    subst h
    rfl
  | (k, v) :: rest, es, h => by
    rw [show normPropValues ((k, v) :: rest) =
      (match normalizeJsonSchema v, normPropValues rest with
       | some v2, some rest2 => some ((k, v2) :: rest2)
       | _, _ => none) from rfl] at h
    split at h
    case _ v2 rest2 hv hr =>
      injection h with h
      subst h
      have h1 := normalizeJsonSchema_clean v v2 hv
      have h2 := normPropValues_clean rest rest2 hr
      simp [cleanPropValues, h1, h2]
    case _ =>
      exact absurd h (by simp)

/-- Helper (C9 cleanliness, object-entry level). -/
theorem normEntries_clean :
    ∀ (kvs es : List (String × JsonVal)), normEntries kvs = some es →
      cleanEntries es = true
  | [], es, h => by
    rw [show normEntries [] = some [] from rfl] at h
    injection h with h
    subst h
    rfl
  | (k, v) :: rest, es, h => by
    rw [normEntries_cons_eq] at h
    split at h
    case isTrue hk =>
      exact normEntries_clean rest es h
    case isFalse hk =>
      have hkf : k ∉ UNSUPPORTED_SCHEMA_KEYS := by simpa using hk
      split at h
      case isTrue hp =>
        split at h
        case _ pvs =>
          split at h
          case _ pvs2 rest2 hpv hr =>
            injection h with h
            subst h
            have h1 := normPropValues_clean pvs pvs2 hpv
            have h2 := normEntries_clean rest rest2 hr
            rw [cleanEntries_cons_eq, if_pos hp]
            simp [hkf, h1, h2]
          case _ =>
            exact absurd h (by simp)
        case _ =>
          exact absurd h (by simp)
        case _ hnotobj hnotnull =>
          split at h
          case _ rest2 hr =>
            injection h with h
            subst h
            have h2 := normEntries_clean rest rest2 hr
            rw [cleanEntries_cons_eq, if_pos hp]
            cases v with
            | obj pvs => exact absurd rfl (hnotobj pvs)
            | null => exact absurd rfl hnotnull
            | bool b => simp [hkf, h2]
            | num n => simp [hkf, h2]
            | str s => simp [hkf, h2]
            | arr xs => simp [hkf, h2]
          case _ =>
            exact absurd h (by simp)
      case isFalse hp =>
        split at h
        case isTrue hi =>
          split at h
          case _ v2 rest2 hv hr =>
            injection h with h
            subst h
            have h1 := normalizeJsonSchema_clean v v2 hv
            have h2 := normEntries_clean rest rest2 hr
            rw [cleanEntries_cons_eq, if_neg hp, if_pos hi]
            simp [hkf, h1, h2]
          case _ =>
            exact absurd h (by simp)
        case isFalse hi =>
          split at h
          case isTrue ha =>
            split at h
            case _ pvs =>
              split at h
              case _ v2 rest2 hv hr =>
                injection h with h
                subst h
                obtain ⟨es2, rfl, _⟩ := normalizeJsonSchema_obj_shape pvs v2 hv
                have h1 := normalizeJsonSchema_clean (.obj pvs) (.obj es2) hv
                have h2 := normEntries_clean rest rest2 hr
                rw [cleanEntries_cons_eq, if_neg hp, if_neg hi, if_pos ha]
                simp [hkf, h1, h2]
              case _ =>
                exact absurd h (by simp)
            case _ xs =>
              split at h
              case _ v2 rest2 hv hr =>
                injection h with h
                subst h
                obtain ⟨ys2, rfl, _⟩ := normalizeJsonSchema_arr_shape xs v2 hv
                have h1 := normalizeJsonSchema_clean (.arr xs) (.arr ys2) hv
                have h2 := normEntries_clean rest rest2 hr
                rw [cleanEntries_cons_eq, if_neg hp, if_neg hi, if_pos ha]
                simp [hkf, h1, h2]
              case _ =>
                exact absurd h (by simp)
            case _ =>
              split at h
              case _ rest2 hr =>
                injection h with h
                subst h
                have h2 := normEntries_clean rest rest2 hr
                rw [cleanEntries_cons_eq, if_neg hp, if_neg hi, if_pos ha]
                simp [hkf, h2]
              case _ =>
                exact absurd h (by simp)
            case _ hnotobj hnotarr hnotnull =>
              split at h
              case _ rest2 hr =>
                injection h with h
                subst h
                have h2 := normEntries_clean rest rest2 hr
                rw [cleanEntries_cons_eq, if_neg hp, if_neg hi, if_pos ha]
                cases v with
                | obj pvs => exact absurd rfl (hnotobj pvs)
                | arr xs => exact absurd rfl (hnotarr xs)
                | null => exact absurd rfl hnotnull
                | bool b => simp [hkf, h2]
                | num n => simp [hkf, h2]
                | str s => simp [hkf, h2]
              case _ =>
                exact absurd h (by simp)
          case isFalse ha =>
            split at h
            case _ rest2 hr =>
              injection h with h
              subst h
              have h2 := normEntries_clean rest rest2 hr
              rw [cleanEntries_cons_eq, if_neg hp, if_neg hi, if_neg ha]
              simp [hkf, h2]
            case _ =>
              exact absurd h (by simp)

end

/-- C9 counterexample: `{"default": {"minLength": 1}}` is a fixed point of
`normalizeJsonSchema`, yet the blacklisted keyword `minLength` still occurs at
nesting level 1 of the output — the recursion only descends into
`properties`, `items` and object-valued `additionalProperties`, so the claim
"every blacklisted keyword is absent from the output at every nesting level"
fails. -/
theorem claim9_normalize_cex :
    normalizeJsonSchema (.obj [("default", .obj [("minLength", .num 1)])])
      = some (.obj [("default", .obj [("minLength", .num 1)])])
    ∧ hasKeyDeep "minLength" (.obj [("default", .obj [("minLength", .num 1)])]) = true
    ∧ UNSUPPORTED_SCHEMA_KEYS.contains "minLength" = true :=
  ⟨rfl, rfl, rfl⟩

/-- C9 amended: whenever normalization succeeds (it throws only on
`properties: null`), it is idempotent, and every blacklisted keyword is
absent from the output along the positions the normalizer rewrites: object
top levels reached through array elements, `properties` values, `items`, and
object-valued `additionalProperties` — not at arbitrary nesting levels
inside other keys' values. -/
theorem claim9_normalize_amended (j j' : JsonVal)
    (h : normalizeJsonSchema j = some j') :
    normalizeJsonSchema j' = some j' ∧ schemaClean j' = true :=
  ⟨normalizeJsonSchema_idem j j' h, normalizeJsonSchema_clean j j' h⟩

/-- C9 amended witness at a concrete schema with a blacklisted key. -/
theorem claim9_normalize_witness :
    normalizeJsonSchema (.obj [("minLength", .num 1), ("type", .str "object")])
      = some (.obj [("type", .str "object")])
    ∧ normalizeJsonSchema (.obj [("type", .str "object")])
        = some (.obj [("type", .str "object")])
    ∧ schemaClean (.obj [("type", .str "object")]) = true := by
  have h : normalizeJsonSchema (.obj [("minLength", .num 1), ("type", .str "object")])
      = some (.obj [("type", .str "object")]) := rfl
  exact ⟨h, (claim9_normalize_amended _ _ h).1, (claim9_normalize_amended _ _ h).2⟩

/-! ### Theorems for claims C7 and C8 -/

/-- Helper: a newline-free buffer splits into no complete line and itself. -/
theorem splitNl_no_nl : ∀ (l : List Char), '\n' ∉ l → splitNl l = ([], l) := by
  intro l hl
  induction l with
  | nil => rfl
  | cons c t ih =>
    have hc : c ≠ '\n' := fun h => hl (h ▸ List.mem_cons_self c t)
    have ht : '\n' ∉ t := fun h => hl (List.mem_cons_of_mem c h)
    rw [show splitNl (c :: t) =
      (if c = '\n' then ([] :: (splitNl t).1, (splitNl t).2)
       else match splitNl t with
            | ([], p) => ([], c :: p)
            | (l :: ls, p) => ((c :: l) :: ls, p)) from rfl]
    rw [if_neg hc, ih ht]

/-- Helper: the re-buffered trailing line contains no newline. -/
theorem splitNl_partial_no_nl : ∀ (l : List Char), '\n' ∉ (splitNl l).2 := by
  intro l
  induction l with
  | nil => simp [splitNl]
  | cons c t ih =>
    rw [show splitNl (c :: t) =
      (if c = '\n' then ([] :: (splitNl t).1, (splitNl t).2)
       else match splitNl t with
            | ([], p) => ([], c :: p)
            | (l :: ls, p) => ((c :: l) :: ls, p)) from rfl]
    by_cases hc : c = '\n'
    · rw [if_pos hc]
      exact ih
    · rw [if_neg hc]
      cases hst : splitNl t with
      | mk L p =>
        cases L with
        | nil =>
          rw [hst] at ih
          simp at ih
          simp [ih, Ne.symm hc]
        | cons l ls =>
          rw [hst] at ih
          simpa using ih

/-- Helper: the line split is a stream homomorphism — splitting a
concatenation equals splitting the first part and re-splitting its trailing
line glued to the second part. -/
theorem splitNl_append : ∀ (xs ys : List Char),
    splitNl (xs ++ ys)
      = ((splitNl xs).1 ++ (splitNl ((splitNl xs).2 ++ ys)).1,
         (splitNl ((splitNl xs).2 ++ ys)).2) := by
  intro xs ys
  induction xs with
  | nil => simp [splitNl]
  | cons c t ih =>
    simp only [List.cons_append]
    by_cases hc : c = '\n'
    · subst hc
      have hunf : ∀ (z : List Char),
          splitNl ('\n' :: z) = ([] :: (splitNl z).1, (splitNl z).2) := by
        intro z
        rw [show splitNl ('\n' :: z) =
          (if ('\n' : Char) = '\n' then ([] :: (splitNl z).1, (splitNl z).2)
           else match splitNl z with
                | ([], p) => ([], '\n' :: p)
                | (l :: ls, p) => (('\n' :: l) :: ls, p)) from rfl]
        rw [if_pos rfl]
      rw [hunf, hunf, ih]
      simp
    · have hunfold : ∀ (z : List Char), splitNl (c :: z) =
          (match splitNl z with
           | ([], p) => ([], c :: p)
           | (l :: ls, p) => ((c :: l) :: ls, p)) := by
        intro z
        rw [show splitNl (c :: z) =
          (if c = '\n' then ([] :: (splitNl z).1, (splitNl z).2)
           else match splitNl z with
                | ([], p) => ([], c :: p)
                | (l :: ls, p) => ((c :: l) :: ls, p)) from rfl]
        rw [if_neg hc]
      cases hst : splitNl t with
      | mk L p =>
        cases L with
        | nil =>
          have hS : splitNl (t ++ ys) = splitNl (p ++ ys) := by
            rw [ih, hst]
            simp
          cases hR : splitNl (p ++ ys) with
          | mk RL Rp =>
            cases RL with
            | nil => simp [hunfold, hst, hS, hR]
            | cons rl rls => simp [hunfold, hst, hS, hR]
        | cons l ls =>
          have hS : splitNl (t ++ ys)
              = (l :: (ls ++ (splitNl (p ++ ys)).1), (splitNl (p ++ ys)).2) := by
            rw [ih, hst]
            simp
          simp [hunfold, hst, hS]

/-- Helper: processing a concatenation of line lists is sequential
composition. -/
theorem processLines_append (parse : String → Option DataRecord)
    (extractSig : List GPart → Option String) :
    ∀ (l1 l2 : List (List Char)) (st : StreamState),
    processLines parse extractSig st (l1 ++ l2)
      = ((processLines parse extractSig
            (processLines parse extractSig st l1).1 l2).1,
         (processLines parse extractSig st l1).2
           ++ (processLines parse extractSig
                (processLines parse extractSig st l1).1 l2).2) := by
  intro l1
  induction l1 with
  | nil => intro l2 st; simp [processLines]
  | cons l ls ih =>
    intro l2 st
    have hcons : ∀ (z : List (List Char)) (s : StreamState),
        processLines parse extractSig s (l :: z)
          = ((processLines parse extractSig (processLine parse extractSig s l).1 z).1,
             (processLine parse extractSig s l).2
               ++ (processLines parse extractSig (processLine parse extractSig s l).1 z).2) :=
      fun z s => rfl
    rw [show (l :: ls) ++ l2 = l :: (ls ++ l2) from rfl, hcons, hcons, ih]
    simp [List.append_assoc]

/-- Helper: feeding two chunks equals feeding their concatenation. -/
theorem feedChunk_comp (parse : String → Option DataRecord)
    (extractSig : List GPart → Option String)
    (acc : List Char × StreamState × List StreamEvent) (c1 c2 : List Char) :
    feedChunk parse extractSig (feedChunk parse extractSig acc c1) c2
      = feedChunk parse extractSig acc (c1 ++ c2) := by
  obtain ⟨b, st, evs⟩ := acc
  simp only [feedChunk]
  rw [show b ++ (c1 ++ c2) = (b ++ c1) ++ c2 from (List.append_assoc b c1 c2).symm]
  rw [splitNl_append (b ++ c1) c2]
  rw [processLines_append]
  simp [List.append_assoc]

/-- Helper: feeding the empty chunk is a no-op when the buffer holds no
newline (true of every reachable buffer). -/
theorem feedChunk_nil (parse : String → Option DataRecord)
    (extractSig : List GPart → Option String)
    (b : List Char) (st : StreamState) (evs : List StreamEvent)
    (hb : '\n' ∉ b) :
    feedChunk parse extractSig (b, st, evs) [] = (b, st, evs) := by
  simp only [feedChunk, List.append_nil]
  rw [splitNl_no_nl b hb]
  simp [processLines]

/-- Helper: folding the chunk step over any chunk list with a newline-free
starting buffer equals one feed of the concatenation. -/
theorem foldl_feedChunk_flatten (parse : String → Option DataRecord)
    (extractSig : List GPart → Option String) :
    ∀ (cs : List (List Char)) (b : List Char) (st : StreamState)
      (evs : List StreamEvent), '\n' ∉ b →
    List.foldl (feedChunk parse extractSig) (b, st, evs) cs
      = feedChunk parse extractSig (b, st, evs) cs.flatten := by
  intro cs
  induction cs with
  | nil =>
    intro b st evs hb
    simp only [List.foldl_nil, List.flatten_nil]
    exact (feedChunk_nil parse extractSig b st evs hb).symm
  | cons c cs' ih =>
    intro b st evs hb
    simp only [List.foldl_cons, List.flatten_cons]
    have hacc : feedChunk parse extractSig (b, st, evs) c
        = ((splitNl (b ++ c)).2,
           (processLines parse extractSig st (splitNl (b ++ c)).1).1,
           evs ++ (processLines parse extractSig st (splitNl (b ++ c)).1).2) := rfl
    rw [hacc, ih _ _ _ (splitNl_partial_no_nl (b ++ c)), ← hacc, feedChunk_comp]

/-- C7: the stream reassembler is invariant under chunk boundaries — for
every parse function, signature extractor and chunking of the upstream
character sequence (including splits in the middle of a `data: ` record),
the run over the chunks equals the run over the unsplit sequence: same final
buffer, same final state, and the same emitted event sequence in the same
order. -/
theorem claim7_chunk_invariance (parse : String → Option DataRecord)
    (extractSig : List GPart → Option String) (chunks : List (List Char)) :
    runStream parse extractSig chunks = runStream parse extractSig [chunks.flatten] := by
  unfold runStream
  rw [foldl_feedChunk_flatten parse extractSig chunks [] initState [] (by simp)]
  simp [List.foldl]

/-- Helper: tool-call event counting is additive. -/
theorem countToolCallEvents_append (a b : List StreamEvent) :
    countToolCallEvents (a ++ b) = countToolCallEvents a + countToolCallEvents b := by
  simp [countToolCallEvents, List.filter_append]

/-- Helper: the parts loop never emits a `tool_calls` event for a single
part (function-call segments are only buffered). -/
theorem countToolCallEvents_processPart (st : StreamState) (p : GPart) :
    countToolCallEvents (processPart st p).2 = 0 := by
  unfold processPart
  split
  · simp [countToolCallEvents]
  · split
    · split
      · simp [countToolCallEvents]
      · simp [countToolCallEvents]
    · split
      · simp [countToolCallEvents]
      · split
        · simp [countToolCallEvents]
        · simp [countToolCallEvents]

/-- Helper: the parts loop never emits a `tool_calls` event. -/
theorem countToolCallEvents_processParts (st : StreamState) (ps : List GPart) :
    countToolCallEvents (processParts st ps).2 = 0 := by
  induction ps generalizing st with
  | nil => rfl
  | cons p ps ih =>
    show countToolCallEvents ((processPart st p).2 ++ (processParts (processPart st p).1 ps).2) = 0
    rw [countToolCallEvents_append, countToolCallEvents_processPart, ih]

/-- Helper: absorbing a record (before the flush) never emits `tool_calls`. -/
theorem countToolCallEvents_absorbRecord (extractSig : List GPart → Option String)
    (st : StreamState) (r : DataRecord) :
    countToolCallEvents (absorbRecord extractSig st r).2 = 0 := by
  unfold absorbRecord
  split <;> split <;> first
    | exact countToolCallEvents_processParts _ _
    | rfl

/-- Helper: one record emits exactly one `tool_calls` event when it carries a
truthy finish indicator and the buffer (including this record's calls) is
non-empty, and none otherwise. -/
theorem countToolCallEvents_processRecord (extractSig : List GPart → Option String)
    (st : StreamState) (r : DataRecord) :
    countToolCallEvents (processRecord extractSig st r).2
      = if truthyStr r.finishReason
            && !((absorbRecord extractSig st r).1.toolCalls.isEmpty)
        then 1 else 0 := by
  unfold processRecord
  by_cases h : (truthyStr r.finishReason
      && !((absorbRecord extractSig st r).1.toolCalls.isEmpty)) = true
  · rw [if_pos h, if_pos h]
    rw [countToolCallEvents_append, countToolCallEvents_absorbRecord]
    rfl
  · rw [if_neg h, if_neg h]
    exact countToolCallEvents_absorbRecord extractSig st r

/-- Helper: the record run produces one event list per record. -/
theorem runRecordsFrom_length (extractSig : List GPart → Option String) :
    ∀ (rs : List DataRecord) (st : StreamState),
      (runRecordsFrom extractSig st rs).length = rs.length := by
  intro rs
  induction rs with
  | nil => intro st; rfl
  | cons r rs ih =>
    intro st
    show ((processRecord extractSig st r).2
        :: runRecordsFrom extractSig (processRecord extractSig st r).1 rs).length = _
    simp [ih]

/-- Helper: the per-index flush characterization, from any starting state. -/
theorem runRecordsFrom_count (extractSig : List GPart → Option String) :
    ∀ (rs : List DataRecord) (st : StreamState) (i : Nat) (evs : List StreamEvent)
      (r : DataRecord),
      (runRecordsFrom extractSig st rs)[i]? = some evs → rs[i]? = some r →
      countToolCallEvents evs
        = if truthyStr r.finishReason
              && !((absorbRecord extractSig
                      (recordStateFrom extractSig st (rs.take i)) r).1.toolCalls.isEmpty)
          then 1 else 0 := by
  intro rs
  induction rs with
  | nil =>
    intro st i evs r hevs _
    simp [runRecordsFrom] at hevs
  | cons r0 rs ih =>
    intro st i evs r hevs hr
    cases i with
    | zero =>
      have h1 : evs = (processRecord extractSig st r0).2 := by
        rw [show runRecordsFrom extractSig st (r0 :: rs)
            = (processRecord extractSig st r0).2
              :: runRecordsFrom extractSig (processRecord extractSig st r0).1 rs from rfl] at hevs
        simpa using hevs.symm
      have h2 : r = r0 := by simpa using hr.symm
      subst h1
      subst h2
      simpa using countToolCallEvents_processRecord extractSig st r
    | succ i =>
      have hevs' : (runRecordsFrom extractSig (processRecord extractSig st r0).1 rs)[i]?
          = some evs := by
        rw [show runRecordsFrom extractSig st (r0 :: rs)
            = (processRecord extractSig st r0).2
              :: runRecordsFrom extractSig (processRecord extractSig st r0).1 rs from rfl] at hevs
        simpa using hevs
      have hr' : rs[i]? = some r := by simpa using hr
      have := ih (processRecord extractSig st r0).1 i evs r hevs' hr'
      simpa [recordStateFrom] using this

/-- C8 counterexample: a single record carrying the terminal finish indicator
`"STOP"` but no function-call segments emits zero `tool_calls` events, not
one — the flush fires only when the buffer is non-empty, so "exactly once
per record that carries a terminal finish indicator" fails. -/
theorem claim8_flush_cex :
    runRecords (fun _ => none) [⟨none, some "STOP"⟩] = [[]]
    ∧ truthyStr (some "STOP") = true
    ∧ countToolCallEvents [] = 0 :=
  ⟨rfl, rfl, rfl⟩

/-- C8 amended: per upstream record, a `tool_calls` event is emitted exactly
once if the record carries a truthy terminal finish indicator and at least
one function-call segment is buffered (from this or earlier records), and
never otherwise; in particular at most one per record, and never at a record
without a finish indicator — regardless of how many function-call segments
were accumulated before. -/
theorem claim8_flush_timing (extractSig : List GPart → Option String)
    (rs : List DataRecord) :
    (runRecords extractSig rs).length = rs.length
    ∧ (∀ (i : Nat) (evs : List StreamEvent) (r : DataRecord),
        (runRecords extractSig rs)[i]? = some evs → rs[i]? = some r →
        countToolCallEvents evs
          = (if truthyStr r.finishReason
                && !((absorbRecord extractSig (recordStateAt extractSig rs i) r).1.toolCalls.isEmpty)
             then 1 else 0)
        ∧ countToolCallEvents evs ≤ 1
        ∧ (truthyStr r.finishReason = false → countToolCallEvents evs = 0)) := by
  refine ⟨runRecordsFrom_length extractSig rs initState, ?_⟩
  intro i evs r hevs hr
  have hmain := runRecordsFrom_count extractSig rs initState i evs r hevs hr
  refine ⟨hmain, ?_, ?_⟩
  · rw [hmain]
    split <;> omega
  · intro hf
    rw [hmain, hf]
    simp

/-- C8 witness: a record buffering one function call followed by a finish
record; the flush happens exactly at the finish record. -/
theorem claim8_flush_witness :
    countToolCallEvents ((runRecords (fun _ => none)
        [⟨some [{ functionCall := some ⟨"id1", "f", "{}"⟩ }], none⟩,
         ⟨none, some "STOP"⟩]).getD 1 []) = 1
    ∧ countToolCallEvents ((runRecords (fun _ => none)
        [⟨some [{ functionCall := some ⟨"id1", "f", "{}"⟩ }], none⟩,
         ⟨none, some "STOP"⟩]).getD 0 []) = 0 := by
  have h := (claim8_flush_timing (fun _ => none)
    [⟨some [{ functionCall := some ⟨"id1", "f", "{}"⟩ }], none⟩, ⟨none, some "STOP"⟩]).2
  have h1 := h 1 ((runRecords (fun _ => none)
      [⟨some [{ functionCall := some ⟨"id1", "f", "{}"⟩ }], none⟩,
       ⟨none, some "STOP"⟩]).getD 1 []) ⟨none, some "STOP"⟩ rfl rfl
  have h0 := (h 0 ((runRecords (fun _ => none)
      [⟨some [{ functionCall := some ⟨"id1", "f", "{}"⟩ }], none⟩,
       ⟨none, some "STOP"⟩]).getD 0 [])
      ⟨some [{ functionCall := some ⟨"id1", "f", "{}"⟩ }], none⟩ rfl rfl).2.2 rfl
  refine ⟨?_, h0⟩
  rw [h1.1]
  rfl
